import Mathlib

/-!
Two-level cache simulator (`cachesimulator.cpp`).

A shallow embedding of the simulator's data model and operations, followed by
theorems about them.

Conventions of the embedding.

* `unsigned int` values (addresses, tags, the index mask) are natural numbers;
  the code only shifts them right and masks them, so a value below `2 ^ 32`
  never leaves that range and no reduction modulo `2 ^ 32` is ever needed.
* `int` fields that the code only ever assigns non-negative values
  (`evictionCounter`, the geometry fields) are natural numbers.
* An operation whose C++ behaviour is undefined (a vector access out of range,
  a remainder by zero, a shift by the operand width or more, a signed overflow)
  returns `none`.
* `findBlock` and `findEmptyBlock` return `none` where the code returns `-1`.
-/

namespace CacheSim

/-! ## Data model -/

/-- One way of a set: `struct CacheBlock`. -/
structure CacheBlock where
  tag : Nat := 0
  valid : Bool := false
  dirty : Bool := false
  deriving DecidableEq

/-- One set: `class Set`, its ways and its round-robin cursor. -/
structure Set where
  ways : List CacheBlock := []
  evictionCounter : Nat := 0
  deriving DecidableEq

/-- One level: `class Cache`. -/
structure Cache where
  sets : List Set
  blockSize : Nat
  numSets : Nat
  associativity : Nat
  indexBits : Nat
  blockOffsetBits : Nat
  indexMask : Nat
  deriving DecidableEq

/-! ## `Set` -/

/-- The constructor `Set()`: no ways, cursor 0. -/
def Set.default : Set := { ways := [], evictionCounter := 0 }

/-- The constructor `Set(int associativity)`: `associativity` value-initialised
ways, cursor 0. -/
def Set.ofAssociativity (associativity : Nat) : Set :=
  { ways := List.replicate associativity { tag := 0, valid := false, dirty := false },
    evictionCounter := 0 }

/-- The loop of `Set::findBlock`, started at way `i` with `ws` the ways from
`i` onwards. -/
def findBlockFrom (tag : Nat) : List CacheBlock → Nat → Option Nat
  | [], _ => none
  | w :: ws, i => if w.valid && w.tag == tag then some i else findBlockFrom tag ws (i + 1)

/-- The method `Set::findBlock`: the first valid way holding `tag`. -/
def Set.findBlock (s : Set) (tag : Nat) : Option Nat :=
  findBlockFrom tag s.ways 0

/-- The loop of `Set::findEmptyBlock`, started at way `i`. -/
def findEmptyBlockFrom : List CacheBlock → Nat → Option Nat
  | [], _ => none
  | w :: ws, i => if !w.valid then some i else findEmptyBlockFrom ws (i + 1)

/-- The method `Set::findEmptyBlock`: the first invalid way. -/
def Set.findEmptyBlock (s : Set) : Option Nat :=
  findEmptyBlockFrom s.ways 0

/-- The method `Set::evict`: returns the cursor and advances it modulo
`ways.size()`; a remainder by zero is undefined. -/
def Set.evict (s : Set) : Option (Nat × Set) :=
  if s.ways.length = 0 then none
  else some (s.evictionCounter,
             { s with evictionCounter := (s.evictionCounter + 1) % s.ways.length })

/-- The three assignments `ways[i].tag = tag; ways[i].valid = true;
ways[i].dirty = false`; undefined when `i` is out of range. -/
def Set.fill (s : Set) (i tag : Nat) : Option Set :=
  if i < s.ways.length then
    some { s with ways := s.ways.set i { tag := tag, valid := true, dirty := false } }
  else none

/-- The method `Set::insertBlock`. -/
def Set.insertBlock (s : Set) (tag : Nat) : Option Set :=
  match s.findEmptyBlock with
  | some emptyBlock => s.fill emptyBlock tag
  | none =>
    match s.evict with
    | none => none
    | some (blockToEvict, s') => s'.fill blockToEvict tag

/-! ## `Cache` -/

/-- The constructor `Cache::Cache`.  The products are `int` products (overflow
and division by zero are undefined); `sets.resize(numSets)` appends `numSets`
sets built by the default constructor `Set()`; `log2` of a positive `int` is
truncated to its integer part, and `log2(0)` is not convertible. -/
def Cache.new (blockSize associativity totalSize : Nat) : Option Cache :=
  if totalSize * 1024 < 2 ^ 31 ∧ blockSize * associativity < 2 ^ 31
      ∧ blockSize * associativity ≠ 0 then
    let numSets := totalSize * 1024 / (blockSize * associativity)
    if numSets = 0 then none
    else
      let indexBits := Nat.log2 numSets
      some { sets := List.replicate numSets Set.default
             blockSize := blockSize
             numSets := numSets
             associativity := associativity
             indexBits := indexBits
             blockOffsetBits := Nat.log2 blockSize
             indexMask := (1 <<< indexBits) - 1 }
  else none

/-- The expression `(address >> blockOffsetBits) & ((1 << indexBits) - 1)` of
`read` and `evictAndMove`. -/
def Cache.readIndex (c : Cache) (address : Nat) : Option Nat :=
  if c.blockOffsetBits < 32 ∧ c.indexBits < 31 then
    some ((address >>> c.blockOffsetBits) &&& ((1 <<< c.indexBits) - 1))
  else none

/-- The expression `(address >> blockOffsetBits) & indexMask` of `write`. -/
def Cache.writeIndex (c : Cache) (address : Nat) : Option Nat :=
  if c.blockOffsetBits < 32 then some ((address >>> c.blockOffsetBits) &&& c.indexMask)
  else none

/-- The expression `address >> (blockOffsetBits + indexBits)`. -/
def Cache.tagOf (c : Cache) (address : Nat) : Option Nat :=
  if c.blockOffsetBits + c.indexBits < 32 then
    some (address >>> (c.blockOffsetBits + c.indexBits))
  else none

/-- The method `Cache::read`: 1 on a hit, 2 on a miss (after allocating). -/
def Cache.read (c : Cache) (address : Nat) : Option (Nat × Cache) := do
  let index ← c.readIndex address
  let tag ← c.tagOf address
  let set ← c.sets[index]?
  if (set.findBlock tag).isSome then
    pure (1, c)
  else
    let set' ← set.insertBlock tag
    pure (2, { c with sets := c.sets.set index set' })

/-- The loop of `Cache::write` at way `i`, with `fuel = associativity - i`
iterations left. -/
def Cache.writeLoop (c : Cache) (index tag : Nat) : Nat → Nat → Option (Nat × Cache)
  | 0, _ => some (4, c)
  | fuel + 1, i => do
    let set ← c.sets[index]?
    let w ← set.ways[i]?
    if w.valid && w.tag == tag then
      let set' : Set := { set with ways := set.ways.set i { w with dirty := true } }
      pure (3, { c with sets := c.sets.set index set' })
    else
      c.writeLoop index tag fuel (i + 1)

/-- The method `Cache::write`: 3 on a hit (the way becomes dirty), 4 on a miss. -/
def Cache.write (c : Cache) (address : Nat) : Option (Nat × Cache) := do
  let index ← c.writeIndex address
  let tag ← c.tagOf address
  c.writeLoop index tag c.associativity 0

/-- The method `Cache::evictAndMove`: the result is the evicted way, this level
and the lower level. -/
def Cache.evictAndMove (c : Cache) (address : Nat) (lowerLevelCache : Cache) :
    Option (Nat × Cache × Cache) := do
  let index ← c.readIndex address
  let _tag ← c.tagOf address
  let set ← c.sets[index]?
  let (evictBlock, set1) ← set.evict
  let w ← set1.ways[evictBlock]?
  let lower ← if w.dirty then (lowerLevelCache.write address).map Prod.snd
              else pure lowerLevelCache
  let set2 : Set := { set1 with ways := set1.ways.set evictBlock
                                  { w with valid := false, dirty := false } }
  pure (evictBlock, { c with sets := c.sets.set index set2 }, lower)

/-! ## The controller -/

/-- One output line: `L1Result L2Result memWrite`. -/
abbrev Record := Nat × Nat × Nat

/-- The body of the loop of `processTrace` for one trace line. -/
def processAccess (L1 L2 : Cache) (accessType : Char) (address : Nat) :
    Option (Record × Cache × Cache) :=
  if accessType = 'R' then do
    let (L1Result, L1a) ← L1.read address
    if L1Result = 2 then
      let (L2Result, L2a) ← L2.read address
      if L2Result = 1 then
        let (_, L1b, L2b) ← L1a.evictAndMove address L2a
        let (_, L1c) ← L1b.read address
        pure ((L1Result, 0, 5), L1c, L2b)
      else
        pure ((L1Result, L2Result, 5), L1a, L2a)
    else
      pure ((L1Result, 0, 5), L1a, L2)
  else if accessType = 'W' then do
    let (L1Result, L1a) ← L1.write address
    if L1Result = 4 then
      let (L2Result, L2a) ← L2.write address
      if L2Result = 4 then
        pure ((L1Result, L2Result, 6), L1a, L2a)
      else
        pure ((L1Result, L2Result, 5), L1a, L2a)
    else
      pure ((L1Result, 0, 5), L1a, L2)
  else
    pure ((0, 0, 5), L1, L2)

/-- The loop of `processTrace` over the lines of the trace: the records
written, or `none` as soon as the processing of one line is undefined. -/
def runTrace (L1 L2 : Cache) : List (Char × Nat) → Option (List Record)
  | [] => some []
  | (accessType, address) :: rest => do
    let (record, L1', L2') ← processAccess L1 L2 accessType address
    let records ← runTrace L1' L2' rest
    pure (record :: records)

/-- The configuration `struct CacheConfig`. -/
structure CacheConfig where
  L1BlockSize : Nat
  L1Associativity : Nat
  L1Size : Nat
  L2BlockSize : Nat
  L2Associativity : Nat
  L2Size : Nat

/-- The function `processTrace`: both levels are constructed, then the trace is
replayed. -/
def processTrace (config : CacheConfig) (trace : List (Char × Nat)) : Option (List Record) := do
  let L1 ← Cache.new config.L1BlockSize config.L1Associativity config.L1Size
  let L2 ← Cache.new config.L2BlockSize config.L2Associativity config.L2Size
  runTrace L1 L2 trace

/-! ## Notions used to state the properties -/

/-- A level is well formed when every set has exactly `associativity >= 1` ways
and a cursor below `associativity`, and its geometry fields are consistent the
way the constructor leaves them: one set per value of `numSets`, an index of
`indexBits` bits never exceeds the sets, no shift is out of range, and
`indexMask` is the mask of `indexBits` bits. -/
def Cache.WellFormed (c : Cache) : Prop :=
  1 ≤ c.associativity ∧
  (∀ s ∈ c.sets, s.ways.length = c.associativity ∧ s.evictionCounter < c.associativity) ∧
  c.sets.length = c.numSets ∧
  2 ^ c.indexBits ≤ c.numSets ∧
  c.indexBits < 31 ∧
  c.blockOffsetBits + c.indexBits < 32 ∧
  c.indexMask = 2 ^ c.indexBits - 1

instance (c : Cache) : Decidable c.WellFormed := by
  unfold Cache.WellFormed; infer_instance

/-- The set an address maps to. -/
def Cache.targetSet (c : Cache) (address : Nat) : Option Set :=
  (c.readIndex address).bind fun index => c.sets[index]?

/-- The level holds the line of `address`: the set the address maps to has a
valid way whose tag is the tag of the address. -/
def Cache.Holds (c : Cache) (address : Nat) : Prop :=
  ∃ set ∈ c.targetSet address, ∃ w ∈ set.ways, w.valid = true ∧ c.tagOf address = some w.tag

instance (c : Cache) (address : Nat) : Decidable (c.Holds address) := by
  unfold Cache.Holds; infer_instance

/-- Way `i` of the set is the first valid way holding `tag`. -/
def Set.FirstMatch (s : Set) (tag i : Nat) : Prop :=
  (∃ w, s.ways[i]? = some w ∧ w.valid = true ∧ w.tag = tag) ∧
  ∀ j < i, ∀ w, s.ways[j]? = some w → ¬ (w.valid = true ∧ w.tag = tag)

/-- The level with the dirty bit of way `i` of set `index` set, and nothing
else changed. -/
def Cache.withDirty (c : Cache) (index i : Nat) : Cache :=
  match c.sets[index]? with
  | none => c
  | some set =>
    match set.ways[i]? with
    | none => c
    | some w =>
      let set' : Set := { set with ways := set.ways.set i { w with dirty := true } }
      { c with sets := c.sets.set index set' }

/-- What a write never changes: the tag and valid bit of every way and the
cursor of every set. -/
def Cache.skeleton (c : Cache) : List (List (Nat × Bool) × Nat) :=
  c.sets.map fun s => (s.ways.map fun w => (w.tag, w.valid), s.evictionCounter)

/-- Way `j` of set `k`, when there is one. -/
def Cache.way (c : Cache) (k j : Nat) : Option CacheBlock :=
  (c.sets[k]?).bind fun s => s.ways[j]?

/-- The cursor of set `k`, when there is such a set. -/
def Cache.cursor (c : Cache) (k : Nat) : Option Nat :=
  (c.sets[k]?).map fun s => s.evictionCounter

/-- The level with every set rebuilt by `Set(associativity)`, the constructor
that `Cache::Cache` never calls. -/
def Cache.withWays (c : Cache) : Cache :=
  { c with sets := List.replicate c.numSets (Set.ofAssociativity c.associativity) }

/-- The configuration of the end-to-end example: `L1: 16 1 1`, `L2: 16 1 8`. -/
def endToEndConfig : CacheConfig :=
  { L1BlockSize := 16, L1Associativity := 1, L1Size := 1,
    L2BlockSize := 16, L2Associativity := 1, L2Size := 8 }

/-- The trace of the end-to-end example: `R 0x0`, `R 0x0`, `W 0x0`. -/
def endToEndTrace : List (Char × Nat) := [('R', 0), ('R', 0), ('W', 0)]

/-- A small well-formed first level: two sets of two ways, blocks of four
bytes.  Set 0 holds tags 5 (dirty) and 7, set 1 holds tag 3 in way 1. -/
def sampleL1 : Cache :=
  { sets := [⟨[⟨5, true, true⟩, ⟨7, true, false⟩], 1⟩, ⟨[⟨0, false, false⟩, ⟨3, true, false⟩], 0⟩]
    blockSize := 4, numSets := 2, associativity := 2
    indexBits := 1, blockOffsetBits := 2, indexMask := 1 }

/-- A small well-formed second level: four sets of one way, blocks of four
bytes.  Set 1 holds tag 1 and set 2 holds tag 2. -/
def sampleL2 : Cache :=
  { sets := [⟨[⟨0, false, false⟩], 0⟩, ⟨[⟨1, true, false⟩], 0⟩, ⟨[⟨2, true, false⟩], 0⟩,
             ⟨[⟨0, false, false⟩], 0⟩]
    blockSize := 4, numSets := 4, associativity := 1
    indexBits := 2, blockOffsetBits := 2, indexMask := 3 }

/-- The second level agrees with the first on every geometry field and on the
number of sets. -/
def Cache.SameGeometry (c c' : Cache) : Prop :=
  c'.blockSize = c.blockSize ∧ c'.numSets = c.numSets ∧ c'.associativity = c.associativity ∧
  c'.indexBits = c.indexBits ∧ c'.blockOffsetBits = c.blockOffsetBits ∧
  c'.indexMask = c.indexMask ∧ c'.sets.length = c.sets.length

/-- A well-formed first level whose set 0 has tag 9 in way 0, an invalid way 1
and cursor 0: the state reached from empty sets by one read of tag 9. -/
def promoteL1 : Cache :=
  { sets := [⟨[⟨9, true, false⟩, ⟨0, false, false⟩], 0⟩, ⟨[⟨0, false, false⟩, ⟨0, false, false⟩], 0⟩]
    blockSize := 4, numSets := 2, associativity := 2
    indexBits := 1, blockOffsetBits := 2, indexMask := 1 }

/-- No two valid ways of the list hold the same tag. -/
def UniqueWays (ws : List CacheBlock) : Prop :=
  ∀ (i j : Nat) (wi wj : CacheBlock), ws[i]? = some wi → ws[j]? = some wj → wi.valid = true → wj.valid = true →
    wi.tag = wj.tag → i = j

/-- Every dirty way of the list is valid. -/
def DirtyValidWays (ws : List CacheBlock) : Prop :=
  ∀ w ∈ ws, w.dirty = true → w.valid = true

/-- The ways of every set of the level satisfy `P`. -/
def Cache.AllWays (P : List CacheBlock → Prop) (c : Cache) : Prop :=
  ∀ s ∈ c.sets, P s.ways

/-- Every set of the level has at most one valid way holding any given tag. -/
def Cache.UniqueTags (c : Cache) : Prop := c.AllWays UniqueWays

/-- Every dirty way of the level is valid. -/
def Cache.DirtyValid (c : Cache) : Prop := c.AllWays DirtyValidWays

/-- Every way of the level is invalid. -/
def Cache.AllInvalid (c : Cache) : Prop := ∀ s ∈ c.sets, ∀ w ∈ s.ways, w.valid = false

instance (c : Cache) : Decidable c.AllInvalid := by
  unfold Cache.AllInvalid; infer_instance

/-- Every way of the level is clean. -/
def Cache.AllClean (c : Cache) : Prop := ∀ s ∈ c.sets, ∀ w ∈ s.ways, w.dirty = false

instance (c : Cache) : Decidable c.AllClean := by
  unfold Cache.AllClean; infer_instance

/-- A property of the ways of a set that the three updates of the code keep:
allocating a line whose tag no valid way holds, marking a valid way dirty, and
invalidating a way. -/
structure WaysClosed (P : List CacheBlock → Prop) : Prop where
  fill : ∀ ws i tag, P ws → (∀ w ∈ ws, ¬ (w.valid = true ∧ w.tag = tag)) →
    P (ws.set i ⟨tag, true, false⟩)
  mark : ∀ ws i w, P ws → ws[i]? = some w → w.valid = true →
    P (ws.set i { w with dirty := true })
  drop : ∀ ws i w, P ws → ws[i]? = some w →
    P (ws.set i { w with valid := false, dirty := false })

/-- One call on the pair of levels: a method of one level, or one controller
event. -/
inductive Call where
  | read1 (address : Nat)
  | read2 (address : Nat)
  | write1 (address : Nat)
  | write2 (address : Nat)
  | evictAndMove1 (address : Nat)
  | evictAndMove2 (address : Nat)
  | event (accessType : Char) (address : Nat)

/-- The effect of one call on `(L1, L2)`: `read1` is `L1.read`, `evictAndMove1`
is `L1.evictAndMove(address, L2)`, `evictAndMove2` is
`L2.evictAndMove(address, L1)`, `event` is one line of the trace. -/
def Call.run : Call → Cache × Cache → Option (Cache × Cache)
  | .read1 a, (L1, L2) => (L1.read a).map fun r => (r.2, L2)
  | .read2 a, (L1, L2) => (L2.read a).map fun r => (L1, r.2)
  | .write1 a, (L1, L2) => (L1.write a).map fun r => (r.2, L2)
  | .write2 a, (L1, L2) => (L2.write a).map fun r => (L1, r.2)
  | .evictAndMove1 a, (L1, L2) => (L1.evictAndMove a L2).map fun r => (r.2.1, r.2.2)
  | .evictAndMove2 a, (L1, L2) => (L2.evictAndMove a L1).map fun r => (r.2.2, r.2.1)
  | .event t a, (L1, L2) => (processAccess L1 L2 t a).map fun r => r.2

/-- A sequence of calls, in order. -/
def runCalls : List Call → Cache × Cache → Option (Cache × Cache)
  | [], s => some s
  | call :: rest, s => (call.run s).bind (runCalls rest)

/-- The history of set `idx`, from the level `c0`: `Fills idx c0 ts c` says
that `c` is reached from `c0` by reads and writes of addresses of set `idx`
in which the tags `ts` were read for the first time in that order (each one an
insertion), every other access being a read or a write of a tag inserted
before. -/
inductive Fills (idx : Nat) (c0 : Cache) : List Nat → Cache → Prop where
  | start : Fills idx c0 [] c0
  | insert {ts : List Nat} {c c' : Cache} {a tag r : Nat} :
      Fills idx c0 ts c → c.readIndex a = some idx → c.tagOf a = some tag → tag ∉ ts →
      c.read a = some (r, c') → Fills idx c0 (ts ++ [tag]) c'
  | readHit {ts : List Nat} {c c' : Cache} {a tag r : Nat} :
      Fills idx c0 ts c → c.readIndex a = some idx → c.tagOf a = some tag → tag ∈ ts →
      c.read a = some (r, c') → Fills idx c0 ts c'
  | writeHit {ts : List Nat} {c c' : Cache} {a tag r : Nat} :
      Fills idx c0 ts c → c.readIndex a = some idx → c.tagOf a = some tag → tag ∈ ts →
      c.write a = some (r, c') → Fills idx c0 ts c'

/-- A first level as `Set(associativity)` would build it: two sets of two
invalid clean ways, blocks of four bytes. -/
def freshL1 : Cache :=
  { sets := [⟨[⟨0, false, false⟩, ⟨0, false, false⟩], 0⟩, ⟨[⟨0, false, false⟩, ⟨0, false, false⟩], 0⟩]
    blockSize := 4, numSets := 2, associativity := 2
    indexBits := 1, blockOffsetBits := 2, indexMask := 1 }

/-- A second level as `Set(associativity)` would build it: four sets of one
invalid clean way, blocks of four bytes. -/
def freshL2 : Cache :=
  { sets := [⟨[⟨0, false, false⟩], 0⟩, ⟨[⟨0, false, false⟩], 0⟩, ⟨[⟨0, false, false⟩], 0⟩,
             ⟨[⟨0, false, false⟩], 0⟩]
    blockSize := 4, numSets := 4, associativity := 1
    indexBits := 2, blockOffsetBits := 2, indexMask := 3 }

/-- The level `freshL1` after reading addresses 8 and 16 (tags 1 and 2 of set
0) and writing address 8: set 0 is full, way 0 is dirty, the cursor is 0. -/
def filledL1 : Cache :=
  { sets := [⟨[⟨1, true, true⟩, ⟨2, true, false⟩], 0⟩, ⟨[⟨0, false, false⟩, ⟨0, false, false⟩], 0⟩]
    blockSize := 4, numSets := 2, associativity := 2
    indexBits := 1, blockOffsetBits := 2, indexMask := 1 }

/-! ## Scanning a set -/

theorem findBlockFrom_eq_none {tag : Nat} {ws : List CacheBlock} {i : Nat} :
    findBlockFrom tag ws i = none ↔ ∀ w ∈ ws, ¬ (w.valid = true ∧ w.tag = tag) := by
  induction ws generalizing i with
  | nil => simp [findBlockFrom]
  | cons w ws ih =>
    by_cases hw : w.valid = true ∧ w.tag = tag
    · simp [findBlockFrom, hw]
    · have hw' : (w.valid && w.tag == tag) = false := by
        cases hv : w.valid <;> simp_all
      simp only [findBlockFrom, hw', Bool.false_eq_true, if_false, ih, List.mem_cons,
        forall_eq_or_imp]
      exact ⟨fun h => ⟨hw, h⟩, fun h => h.2⟩

theorem findBlockFrom_eq_some {tag : Nat} {ws : List CacheBlock} {i k : Nat}
    (h : findBlockFrom tag ws i = some k) :
    ∃ j w, k = i + j ∧ ws[j]? = some w ∧ w.valid = true ∧ w.tag = tag ∧
      ∀ j' < j, ∀ w', ws[j']? = some w' → ¬ (w'.valid = true ∧ w'.tag = tag) := by
  induction ws generalizing i with
  | nil => simp [findBlockFrom] at h
  | cons w ws ih =>
    by_cases hw : w.valid = true ∧ w.tag = tag
    · simp [findBlockFrom, hw] at h
      exact ⟨0, w, by omega, by simp, hw.1, hw.2, by omega⟩
    · have hw' : (w.valid && w.tag == tag) = false := by
        cases hv : w.valid <;> simp_all
      simp only [findBlockFrom, hw', Bool.false_eq_true, if_false] at h
      obtain ⟨j, w1, hk, hj, hv, ht, hmin⟩ := ih h
      refine ⟨j + 1, w1, by omega, by simpa using hj, hv, ht, ?_⟩
      intro j' hj' w' hw1
      cases j' with
      | zero => simp at hw1; subst hw1; exact hw
      | succ n => exact hmin n (by omega) w' (by simpa using hw1)

theorem findEmptyBlockFrom_eq_some {ws : List CacheBlock} {i k : Nat}
    (h : findEmptyBlockFrom ws i = some k) : ∃ j, k = i + j ∧ j < ws.length := by
  induction ws generalizing i with
  | nil => simp [findEmptyBlockFrom] at h
  | cons w ws ih =>
    cases hv : w.valid
    · simp [findEmptyBlockFrom, hv] at h
      exact ⟨0, by omega, by simp⟩
    · simp only [findEmptyBlockFrom, hv, Bool.not_true, Bool.false_eq_true, if_false] at h
      obtain ⟨j, hk, hj⟩ := ih h
      exact ⟨j + 1, by omega, by simpa using hj⟩

theorem Set.findBlock_isSome_iff (s : Set) (tag : Nat) :
    (s.findBlock tag).isSome = true ↔ ∃ w ∈ s.ways, w.valid = true ∧ w.tag = tag := by
  unfold Set.findBlock
  cases h : findBlockFrom tag s.ways 0 with
  | none =>
    have := findBlockFrom_eq_none.mp h
    simp only [Option.isSome_none, Bool.false_eq_true, false_iff, not_exists, not_and]
    intro w hw hv ht
    exact this w hw ⟨hv, ht⟩
  | some k =>
    obtain ⟨j, w, _, hj, hv, ht, _⟩ := findBlockFrom_eq_some h
    simp only [Option.isSome_some, true_iff]
    exact ⟨w, List.mem_iff_getElem?.mpr ⟨j, hj⟩, hv, ht⟩

theorem Set.findBlock_firstMatch {s : Set} {tag k : Nat} (h : s.findBlock tag = some k) :
    s.FirstMatch tag k := by
  obtain ⟨j, w, hk, hj, hv, ht, hmin⟩ := findBlockFrom_eq_some h
  have : k = j := by omega
  subst this
  exact ⟨⟨w, hj, hv, ht⟩, hmin⟩

/-- Under the shape invariant of a set, `insertBlock` succeeds: it overwrites
one way with the new valid clean line and leaves a cursor in range. -/
theorem Set.insertBlock_spec (s : Set) (tag A : Nat) (hA : 1 ≤ A)
    (hlen : s.ways.length = A) (hcur : s.evictionCounter < A) :
    ∃ i cur, i < A ∧ cur < A ∧
      s.insertBlock tag = some { ways := s.ways.set i { tag := tag, valid := true, dirty := false },
                                 evictionCounter := cur } := by
  unfold Set.insertBlock
  cases he : s.findEmptyBlock with
  | some e =>
    obtain ⟨j, hk, hj⟩ := findEmptyBlockFrom_eq_some he
    have hlt : e < s.ways.length := by omega
    exact ⟨e, s.evictionCounter, by omega, hcur, by simp [Set.fill, hlt]⟩
  | none =>
    have hne : s.ways.length ≠ 0 := by omega
    refine ⟨s.evictionCounter, (s.evictionCounter + 1) % s.ways.length, hcur, ?_, ?_⟩
    · rw [hlen]; exact Nat.mod_lt _ (by omega)
    · have hA0 : A ≠ 0 := by omega
      simp [Set.evict, Set.fill, hlen, hcur, hA0]

/-! ## Decoding an address in a well-formed level -/

theorem Cache.WellFormed.decode {c : Cache} (h : c.WellFormed) (a : Nat) :
    ∃ index tag st, c.readIndex a = some index ∧ c.writeIndex a = some index ∧
      c.tagOf a = some tag ∧ c.sets[index]? = some st ∧
      st.ways.length = c.associativity ∧ st.evictionCounter < c.associativity := by
  obtain ⟨_, hsets, hlen, hpow, hib, hsh, hmask⟩ := h
  have hbo : c.blockOffsetBits < 32 := by omega
  have hidx : (a >>> c.blockOffsetBits) &&& ((1 <<< c.indexBits) - 1) < c.sets.length := by
    rw [Nat.one_shiftLeft, Nat.and_pow_two_sub_one_eq_mod]
    have := Nat.mod_lt (a >>> c.blockOffsetBits) (Nat.two_pow_pos c.indexBits)
    omega
  obtain ⟨st, hst⟩ : ∃ st, c.sets[(a >>> c.blockOffsetBits) &&& ((1 <<< c.indexBits) - 1)]?
      = some st := ⟨_, List.getElem?_eq_getElem hidx⟩
  have hmem : st ∈ c.sets := List.mem_iff_getElem?.mpr ⟨_, hst⟩
  refine ⟨(a >>> c.blockOffsetBits) &&& ((1 <<< c.indexBits) - 1),
    a >>> (c.blockOffsetBits + c.indexBits), st, ?_, ?_, ?_,
    hst, (hsets st hmem).1, (hsets st hmem).2⟩
  · simp [Cache.readIndex, hbo, hib]
  · simp [Cache.writeIndex, hbo, hmask, Nat.one_shiftLeft]
  · simp [Cache.tagOf, hsh]

theorem Cache.WellFormed.replaceSet {c : Cache} (h : c.WellFormed) (index : Nat) (s' : Set)
    (hl : s'.ways.length = c.associativity) (hc : s'.evictionCounter < c.associativity) :
    Cache.WellFormed { c with sets := c.sets.set index s' } := by
  obtain ⟨hA, hsets, hlen, hrest⟩ := h
  refine ⟨hA, ?_, by simpa using hlen, hrest⟩
  intro s hs
  rcases List.mem_or_eq_of_mem_set hs with hs | hs
  · exact hsets s hs
  · subst hs; exact ⟨hl, hc⟩

theorem Cache.holds_iff {c : Cache} {a index tag : Nat} {st : Set}
    (hidx : c.readIndex a = some index) (htag : c.tagOf a = some tag)
    (hs : c.sets[index]? = some st) :
    c.Holds a ↔ ∃ w ∈ st.ways, w.valid = true ∧ w.tag = tag := by
  simp only [Cache.Holds, Cache.targetSet, hidx, Option.some_bind, hs, Option.mem_def,
    Option.some.injEq, htag, exists_eq_left']
  constructor
  · rintro ⟨w, hw, hv, ht⟩; exact ⟨w, hw, hv, ht.symm⟩
  · rintro ⟨w, hw, hv, ht⟩; exact ⟨w, hw, hv, ht.symm⟩

/-! ## `Cache::read` -/

theorem Cache.read_of_holds {c : Cache} (h : c.WellFormed) {a : Nat} (hh : c.Holds a) :
    c.read a = some (1, c) := by
  obtain ⟨index, tag, st, hidx, _, htag, hs, _, _⟩ := h.decode a
  have hf := (st.findBlock_isSome_iff tag).mpr ((Cache.holds_iff hidx htag hs).mp hh)
  simp [Cache.read, hidx, htag, hs, hf]

theorem Cache.read_of_not_holds {c : Cache} (h : c.WellFormed) {a : Nat} (hh : ¬ c.Holds a) :
    ∃ index tag st i cur, c.readIndex a = some index ∧ c.tagOf a = some tag ∧
      c.sets[index]? = some st ∧ i < c.associativity ∧ cur < c.associativity ∧
      c.read a = some (2, { c with
        sets := c.sets.set index ⟨st.ways.set i ⟨tag, true, false⟩, cur⟩ }) := by
  obtain ⟨index, tag, st, hidx, _, htag, hs, hlen, hcur⟩ := h.decode a
  have hf : (st.findBlock tag).isSome = false := by
    cases hb : (st.findBlock tag).isSome
    · rfl
    · exact absurd ((Cache.holds_iff hidx htag hs).mpr ((st.findBlock_isSome_iff tag).mp hb)) hh
  obtain ⟨i, cur, hi, hcur', hins⟩ := st.insertBlock_spec tag c.associativity h.1 hlen hcur
  exact ⟨index, tag, st, i, cur, hidx, htag, hs, hi, hcur',
    by simp [Cache.read, hidx, htag, hs, hf, hins]⟩

/-- A read always returns, keeps the level well formed, and leaves the line
of the address resident. -/
theorem Cache.read_total {c : Cache} (h : c.WellFormed) (a : Nat) :
    ∃ r c', c.read a = some (r, c') ∧ c'.WellFormed ∧ c'.Holds a ∧
      (c.Holds a → r = 1 ∧ c' = c) ∧ (¬ c.Holds a → r = 2) := by
  by_cases hh : c.Holds a
  · exact ⟨1, c, Cache.read_of_holds h hh, h, hh, fun _ => ⟨rfl, rfl⟩, fun hn => absurd hh hn⟩
  · obtain ⟨index, tag, st, i, cur, hidx, htag, hs, hi, hcur, hr⟩ := Cache.read_of_not_holds h hh
    obtain ⟨index', tag', st', hidx', _, htag', hs', hlen, _⟩ := h.decode a
    have e1 : index' = index := by rw [hidx] at hidx'; exact (Option.some.inj hidx').symm
    subst e1
    have e2 : st' = st := by rw [hs] at hs'; exact (Option.some.inj hs').symm
    subst e2
    have hidxlt : index' < c.sets.length := (List.getElem?_eq_some.mp hs).1
    refine ⟨2, _, hr, h.replaceSet index' ⟨st'.ways.set i ⟨tag, true, false⟩, cur⟩
        (by simpa using hlen) hcur, ?_, fun hc => absurd hc hh, fun _ => rfl⟩
    have hs2 : (c.sets.set index' ⟨st'.ways.set i ⟨tag, true, false⟩, cur⟩)[index']?
        = some ⟨st'.ways.set i ⟨tag, true, false⟩, cur⟩ := by
      simp [List.getElem?_set, hidxlt]
    refine (Cache.holds_iff (c := { c with
      sets := c.sets.set index' ⟨st'.ways.set i ⟨tag, true, false⟩, cur⟩ }) hidx htag hs2).mpr
      ⟨⟨tag, true, false⟩, ?_, rfl, rfl⟩
    exact List.mem_iff_getElem?.mpr ⟨i, by simp [List.getElem?_set, hlen, hi]⟩

/-! ## `Cache::write` -/

theorem Cache.writeLoop_eq {c : Cache} {index : Nat} (tag : Nat) {st : Set}
    (hs : c.sets[index]? = some st) :
    ∀ fuel i, i + fuel = st.ways.length →
      c.writeLoop index tag fuel i =
        match findBlockFrom tag (st.ways.drop i) i with
        | some k => some (3, c.withDirty index k)
        | none => some (4, c) := by
  intro fuel
  induction fuel with
  | zero =>
    intro i hi
    have hnil : st.ways.drop i = [] := List.drop_eq_nil_of_le (by omega)
    simp [Cache.writeLoop, hnil, findBlockFrom]
  | succ n ih =>
    intro i hi
    have hlt : i < st.ways.length := by omega
    rw [List.drop_eq_getElem_cons hlt]
    by_cases hw : (st.ways[i].valid && st.ways[i].tag == tag) = true
    · simp only [Cache.writeLoop, hs, List.getElem?_eq_getElem hlt, findBlockFrom, hw,
        Cache.withDirty, Option.bind_eq_bind, Option.some_bind, if_true]
      rfl
    · have hrec := ih (i + 1) (by omega)
      simp only [Cache.writeLoop, hs, List.getElem?_eq_getElem hlt, findBlockFrom, hw,
        Option.bind_eq_bind, Option.some_bind, Bool.false_eq_true, if_false, hrec]

theorem Cache.write_eq {c : Cache} (h : c.WellFormed) (a : Nat) :
    ∃ index tag st, c.readIndex a = some index ∧ c.tagOf a = some tag ∧
      c.sets[index]? = some st ∧
      c.write a = match st.findBlock tag with
        | some k => some (3, c.withDirty index k)
        | none => some (4, c) := by
  obtain ⟨index, tag, st, hidx, hwidx, htag, hs, hlen, _⟩ := h.decode a
  refine ⟨index, tag, st, hidx, htag, hs, ?_⟩
  have := Cache.writeLoop_eq tag hs c.associativity 0 (by omega)
  simp only [Cache.write, hwidx, htag, Option.bind_eq_bind, Option.some_bind, this,
    List.drop_zero, Set.findBlock]

theorem Cache.withDirty_wellFormed {c : Cache} (h : c.WellFormed) (index i : Nat) :
    (c.withDirty index i).WellFormed := by
  cases hs : c.sets[index]? with
  | none => simpa only [Cache.withDirty, hs] using h
  | some st =>
    cases hw : st.ways[i]? with
    | none => simpa only [Cache.withDirty, hs, hw] using h
    | some w =>
      have hmem : st ∈ c.sets := List.mem_iff_getElem?.mpr ⟨_, hs⟩
      simp only [Cache.withDirty, hs, hw]
      exact h.replaceSet index _ (by simpa using (h.2.1 st hmem).1) (h.2.1 st hmem).2

theorem Cache.withDirty_skeleton (c : Cache) (index i : Nat) :
    (c.withDirty index i).skeleton = c.skeleton := by
  cases hs : c.sets[index]? with
  | none => simp only [Cache.withDirty, hs]
  | some st =>
    cases hw : st.ways[i]? with
    | none => simp only [Cache.withDirty, hs, hw]
    | some w =>
      simp only [Cache.withDirty, hs, hw, Cache.skeleton]
      apply List.ext_getElem?
      intro k
      simp only [List.getElem?_map, List.getElem?_set]
      by_cases hk : index = k
      · subst hk
        have hlt : index < c.sets.length := (List.getElem?_eq_some.mp hs).1
        simp only [hlt, if_true, hs, Option.map_some', Option.some.injEq, Prod.mk.injEq,
          and_true]
        apply List.ext_getElem?
        intro j
        simp only [List.getElem?_map, List.getElem?_set]
        by_cases hj : i = j
        · subst hj
          have hlt' : i < st.ways.length := (List.getElem?_eq_some.mp hw).1
          simp [hlt', hw]
        · simp [hj]
      · simp [hk]

/-- A write hit: the first matching way of the target set becomes dirty. -/
theorem Cache.write_of_holds {c : Cache} (h : c.WellFormed) {a : Nat} (hh : c.Holds a) :
    ∃ index tag st i, c.readIndex a = some index ∧ c.tagOf a = some tag ∧
      c.sets[index]? = some st ∧ st.FirstMatch tag i ∧
      c.write a = some (3, c.withDirty index i) := by
  obtain ⟨index, tag, st, hidx, htag, hs, hw⟩ := Cache.write_eq h a
  have hf := (st.findBlock_isSome_iff tag).mpr ((Cache.holds_iff hidx htag hs).mp hh)
  cases hk : st.findBlock tag with
  | none => simp [hk] at hf
  | some k =>
    rw [hk] at hw
    exact ⟨index, tag, st, k, hidx, htag, hs, Set.findBlock_firstMatch hk, hw⟩

/-- A write miss: nothing is allocated, nothing changes. -/
theorem Cache.write_of_not_holds {c : Cache} (h : c.WellFormed) {a : Nat} (hh : ¬ c.Holds a) :
    c.write a = some (4, c) := by
  obtain ⟨index, tag, st, hidx, htag, hs, hw⟩ := Cache.write_eq h a
  cases hk : st.findBlock tag with
  | none => rw [hk] at hw; exact hw
  | some k =>
    have hf : (st.findBlock tag).isSome = true := by simp [hk]
    exact absurd ((Cache.holds_iff hidx htag hs).mpr ((st.findBlock_isSome_iff tag).mp hf)) hh

/-- A write always returns and keeps the level well formed. -/
theorem Cache.write_total {c : Cache} (h : c.WellFormed) (a : Nat) :
    ∃ r c', c.write a = some (r, c') ∧ c'.WellFormed := by
  by_cases hh : c.Holds a
  · obtain ⟨index, _, _, i, _, _, _, _, hw⟩ := Cache.write_of_holds h hh
    exact ⟨3, _, hw, Cache.withDirty_wellFormed h index i⟩
  · exact ⟨4, c, Cache.write_of_not_holds h hh, h⟩

theorem Cache.withDirty_eq {c : Cache} {index i : Nat} {st : Set} {w : CacheBlock}
    (hs : c.sets[index]? = some st) (hw : st.ways[i]? = some w) :
    c.withDirty index i = { c with
      sets := c.sets.set index ⟨st.ways.set i { w with dirty := true }, st.evictionCounter⟩ } := by
  simp only [Cache.withDirty, hs, hw]

/-- What `withDirty` means way by way: way `i` of set `index` keeps its tag and
valid bit and is dirty, every other way is the same. -/
theorem Cache.withDirty_way {c : Cache} {index i : Nat} {st : Set} {w : CacheBlock}
    (hs : c.sets[index]? = some st) (hw : st.ways[i]? = some w) (k j : Nat) :
    (c.withDirty index i).way k j =
      if k = index ∧ j = i then some { w with dirty := true } else c.way k j := by
  have hk : index < c.sets.length := (List.getElem?_eq_some.mp hs).1
  have hi : i < st.ways.length := (List.getElem?_eq_some.mp hw).1
  rw [Cache.withDirty_eq hs hw]
  simp only [Cache.way, List.getElem?_set]
  by_cases h1 : index = k
  · subst h1
    by_cases h2 : i = j
    · subst h2; simp [hk, hi]
    · have h2' : ¬ j = i := fun e => h2 e.symm
      simp [hk, hs, h2, h2', List.getElem?_set]
  · have h1' : ¬ k = index := fun e => h1 e.symm
    simp [h1, h1']

/-- No cursor differs in `withDirty`. -/
theorem Cache.withDirty_cursor (c : Cache) (index i k : Nat) :
    (c.withDirty index i).cursor k = c.cursor k := by
  cases hs : c.sets[index]? with
  | none => simp only [Cache.withDirty, hs]
  | some st =>
    cases hw : st.ways[i]? with
    | none => simp only [Cache.withDirty, hs, hw]
    | some w =>
      have hk : index < c.sets.length := (List.getElem?_eq_some.mp hs).1
      rw [Cache.withDirty_eq hs hw]
      simp only [Cache.cursor, List.getElem?_set]
      by_cases h1 : index = k
      · subst h1; simp [hk, hs]
      · simp [h1]

/-! ## `Cache::evictAndMove` -/

theorem Cache.evictAndMove_spec {c lower : Cache} (h : c.WellFormed) (hl : lower.WellFormed)
    (a : Nat) :
    ∃ index st w lower', c.readIndex a = some index ∧ c.sets[index]? = some st ∧
      st.ways[st.evictionCounter]? = some w ∧
      (w.dirty = true → ∃ r, lower.write a = some (r, lower')) ∧
      (w.dirty = false → lower' = lower) ∧ lower'.WellFormed ∧
      c.evictAndMove a lower = some (st.evictionCounter, { c with
        sets := c.sets.set index ⟨st.ways.set st.evictionCounter
          { w with valid := false, dirty := false },
          (st.evictionCounter + 1) % c.associativity⟩ }, lower') := by
  obtain ⟨index, tag, st, hidx, _, htag, hs, hlen, hcur⟩ := h.decode a
  have hA := h.1
  have hne : st.ways.length ≠ 0 := by omega
  have hlt : st.evictionCounter < st.ways.length := by omega
  have hne' : st.ways ≠ [] := fun h0 => hne (by rw [h0]; rfl)
  have hw : st.ways[st.evictionCounter]? = some st.ways[st.evictionCounter] :=
    List.getElem?_eq_getElem hlt
  cases hd : st.ways[st.evictionCounter].dirty with
  | false =>
    refine ⟨index, st, _, lower, hidx, hs, hw, ?_, fun _ => rfl, hl, ?_⟩
    · intro hd'; rw [hd] at hd'; cases hd'
    · simp [Cache.evictAndMove, hidx, htag, hs, Set.evict, hne', hw, hd, hlen]
  | true =>
    obtain ⟨r, lower', hwr, hwf⟩ := Cache.write_total hl a
    refine ⟨index, st, _, lower', hidx, hs, hw, fun _ => ⟨r, hwr⟩, ?_, hwf, ?_⟩
    · intro hd'; rw [hd] at hd'; cases hd'
    · simp [Cache.evictAndMove, hidx, htag, hs, Set.evict, hne', hw, hd, hlen, hwr]

theorem Cache.evictAndMove_total {c lower : Cache} (h : c.WellFormed) (hl : lower.WellFormed)
    (a : Nat) :
    ∃ e c' lower', c.evictAndMove a lower = some (e, c', lower') ∧ c'.WellFormed ∧
      lower'.WellFormed := by
  obtain ⟨index, st, w, lower', _, hs, _, _, _, hwf, he⟩ := Cache.evictAndMove_spec h hl a
  have hmem : st ∈ c.sets := List.mem_iff_getElem?.mpr ⟨_, hs⟩
  refine ⟨_, _, lower', he, h.replaceSet index _ (by simpa using (h.2.1 st hmem).1) ?_, hwf⟩
  exact Nat.mod_lt _ (by have := h.1; omega)

/-! ## One trace line -/

theorem processAccess_read_hit {L1 : Cache} (L2 : Cache) {a : Nat} (h1 : L1.WellFormed)
    (hh : L1.Holds a) : processAccess L1 L2 'R' a = some ((1, 0, 5), L1, L2) := by
  simp [processAccess, Cache.read_of_holds h1 hh]

theorem processAccess_read_miss_miss {L1 L2 : Cache} {a : Nat} (h1 : L1.WellFormed)
    (h2 : L2.WellFormed) (hm1 : ¬ L1.Holds a) (hm2 : ¬ L2.Holds a) :
    ∃ L1a L2a, L1.read a = some (2, L1a) ∧ L2.read a = some (2, L2a) ∧
      processAccess L1 L2 'R' a = some ((2, 2, 5), L1a, L2a) := by
  obtain ⟨r1, L1a, hr1, _, _, _, hr1m⟩ := Cache.read_total h1 a
  obtain ⟨r2, L2a, hr2, _, _, _, hr2m⟩ := Cache.read_total h2 a
  have e1 := hr1m hm1
  have e2 := hr2m hm2
  subst e1 e2
  exact ⟨L1a, L2a, hr1, hr2, by simp [processAccess, hr1, hr2]⟩

theorem processAccess_read_promote {L1 L2 : Cache} {a : Nat} (h1 : L1.WellFormed)
    (h2 : L2.WellFormed) (hm1 : ¬ L1.Holds a) (hh2 : L2.Holds a) :
    ∃ L1a e L1b L2b r L1c, L1.read a = some (2, L1a) ∧ L1a.WellFormed ∧
      L1a.evictAndMove a L2 = some (e, L1b, L2b) ∧ L1b.read a = some (r, L1c) ∧
      L1c.WellFormed ∧ L2b.WellFormed ∧ L1c.Holds a ∧
      processAccess L1 L2 'R' a = some ((2, 0, 5), L1c, L2b) := by
  obtain ⟨r1, L1a, hr1, hwf1a, _, _, hr1m⟩ := Cache.read_total h1 a
  have e1 := hr1m hm1
  subst e1
  have hr2 := Cache.read_of_holds h2 hh2
  obtain ⟨e, L1b, L2b, hev, hwf1b, hwf2b⟩ := Cache.evictAndMove_total hwf1a h2 a
  obtain ⟨r, L1c, hr3, hwf1c, hh1c, _, _⟩ := Cache.read_total hwf1b a
  exact ⟨L1a, e, L1b, L2b, r, L1c, hr1, hwf1a, hev, hr3, hwf1c, hwf2b, hh1c,
    by simp [processAccess, hr1, hr2, hev, hr3]⟩

theorem processAccess_write_hit {L1 : Cache} (L2 : Cache) {a : Nat} {L1a : Cache}
    (hw : L1.write a = some (3, L1a)) :
    processAccess L1 L2 'W' a = some ((3, 0, 5), L1a, L2) := by
  simp [processAccess, hw]

theorem processAccess_write_miss {L1 L2 : Cache} {a r : Nat} {L2a : Cache}
    (hw1 : L1.write a = some (4, L1)) (hw2 : L2.write a = some (r, L2a)) :
    processAccess L1 L2 'W' a = some ((4, r, if r = 4 then 6 else 5), L1, L2a) := by
  by_cases hr : r = 4 <;> simp [processAccess, hw1, hw2, hr]

/-! ## The constructor -/

theorem Cache.new_eq_some {blockSize associativity totalSize : Nat} {c : Cache}
    (h : Cache.new blockSize associativity totalSize = some c) :
    c.sets = List.replicate (totalSize * 1024 / (blockSize * associativity)) Set.default ∧
      c.numSets = totalSize * 1024 / (blockSize * associativity) ∧
      c.associativity = associativity ∧ 1 ≤ associativity := by
  unfold Cache.new at h
  split at h
  · rename_i hg
    by_cases hz : totalSize * 1024 / (blockSize * associativity) = 0
    · simp [hz] at h
    · simp only [hz, if_false, Option.some.injEq] at h
      subst h
      refine ⟨rfl, rfl, rfl, ?_⟩
      rcases Nat.eq_zero_or_pos associativity with h0 | h0
      · exact absurd (by rw [h0]; rfl) hg.2.2
      · exact h0
  · cases h

/-- Every set of a constructed level is the set built by `Set()`. -/
theorem Cache.new_getElem? {blockSize associativity totalSize : Nat} {c : Cache}
    (h : Cache.new blockSize associativity totalSize = some c) {index : Nat} {st : Set}
    (hs : c.sets[index]? = some st) : st = Set.default := by
  have hmem : st ∈ c.sets := List.mem_iff_getElem?.mpr ⟨_, hs⟩
  rw [(Cache.new_eq_some h).1] at hmem
  exact (List.mem_replicate.mp hmem).2

/-- On a constructed level every read is undefined: the target set has no
way, so `insertBlock` reaches the remainder by `ways.size() = 0` of `evict`. -/
theorem Cache.new_read {blockSize associativity totalSize : Nat} {c : Cache}
    (h : Cache.new blockSize associativity totalSize = some c) (address : Nat) :
    c.read address = none := by
  unfold Cache.read
  cases hidx : c.readIndex address with
  | none => rfl
  | some index =>
    cases htag : c.tagOf address with
    | none => rfl
    | some tag =>
      cases hs : c.sets[index]? with
      | none => simp [hs]
      | some st =>
        have := Cache.new_getElem? h hs
        subst this
        simp [hs, Set.default, Set.findBlock, findBlockFrom, Set.insertBlock, Set.findEmptyBlock,
          findEmptyBlockFrom, Set.evict]

/-- On a constructed level every write is undefined: the loop reads way 0 of
a set that has no way. -/
theorem Cache.new_write {blockSize associativity totalSize : Nat} {c : Cache}
    (h : Cache.new blockSize associativity totalSize = some c) (address : Nat) :
    c.write address = none := by
  obtain ⟨_, _, hA, hpos⟩ := Cache.new_eq_some h
  unfold Cache.write
  cases hidx : c.writeIndex address with
  | none => rfl
  | some index =>
    cases htag : c.tagOf address with
    | none => rfl
    | some tag =>
      obtain ⟨n, hn⟩ : ∃ n, c.associativity = n + 1 := ⟨associativity - 1, by omega⟩
      simp only [Option.bind_eq_bind, Option.some_bind, hn, Cache.writeLoop]
      cases hs : c.sets[index]? with
      | none => simp
      | some st =>
        have := Cache.new_getElem? h hs
        subst this
        simp [Set.default]

/-- The geometry the constructor computes is the geometry of a well-formed
level: with the ways `Set(associativity)` would give, the constructed level is
well formed. -/
theorem Cache.new_withWays_wellFormed {blockSize associativity totalSize : Nat} {c : Cache}
    (h : Cache.new blockSize associativity totalSize = some c) : c.withWays.WellFormed := by
  have hpos := (Cache.new_eq_some h).2.2.2
  unfold Cache.new at h
  split at h
  · rename_i hg
    by_cases hz : totalSize * 1024 / (blockSize * associativity) = 0
    · simp [hz] at h
    · simp only [hz, if_false, Option.some.injEq] at h
      subst h
      have hbs : blockSize ≠ 0 := fun h0 => hg.2.2 (by rw [h0, Nat.zero_mul])
      have hn1 := Nat.log2_self_le hz
      have hb1 := Nat.log2_self_le hbs
      have hdiv : totalSize * 1024 / (blockSize * associativity) * (blockSize * associativity)
          ≤ totalSize * 1024 := Nat.div_mul_le_self _ _
      have hprod : blockSize * (totalSize * 1024 / (blockSize * associativity))
          ≤ totalSize * 1024 / (blockSize * associativity) * (blockSize * associativity) := by
        calc blockSize * (totalSize * 1024 / (blockSize * associativity))
            = totalSize * 1024 / (blockSize * associativity) * (blockSize * 1) := by ring
          _ ≤ totalSize * 1024 / (blockSize * associativity) * (blockSize * associativity) :=
            Nat.mul_le_mul_left _ (Nat.mul_le_mul_left _ hpos)
      have hpow : 2 ^ (Nat.log2 blockSize
          + Nat.log2 (totalSize * 1024 / (blockSize * associativity))) < 2 ^ 31 := by
        rw [Nat.pow_add]
        calc 2 ^ Nat.log2 blockSize * 2 ^ Nat.log2 (totalSize * 1024 / (blockSize * associativity))
            ≤ blockSize * (totalSize * 1024 / (blockSize * associativity)) :=
              Nat.mul_le_mul hb1 hn1
          _ ≤ totalSize * 1024 := le_trans hprod hdiv
          _ < 2 ^ 31 := hg.1
      have hsum := (Nat.pow_lt_pow_iff_right (by decide : 1 < 2)).mp hpow
      refine ⟨hpos, ?_, by simp [Cache.withWays], hn1, ?_, ?_, ?_⟩
      · intro s hs
        have := (List.mem_replicate.mp hs).2
        subst this
        exact ⟨by simp [Set.ofAssociativity, Cache.withWays], hpos⟩
      · show Nat.log2 (totalSize * 1024 / (blockSize * associativity)) < 31
        omega
      · show Nat.log2 blockSize + Nat.log2 (totalSize * 1024 / (blockSize * associativity)) < 32
        omega
      · show 1 <<< Nat.log2 (totalSize * 1024 / (blockSize * associativity)) - 1 = _
        rw [Nat.one_shiftLeft]
        rfl
  · cases h

theorem Cache.new_16_1_1 :
    Cache.new 16 1 1 = some ⟨List.replicate 64 Set.default, 16, 64, 1, 6, 4, 63⟩ := by
  simp [Cache.new, Nat.log2]

theorem Cache.new_16_1_8 :
    Cache.new 16 1 8 = some ⟨List.replicate 512 Set.default, 16, 512, 1, 9, 4, 511⟩ := by
  have h1 : Nat.log2 (8 * 1024 / (16 * 1)) = 9 := by simp [Nat.log2]
  have h2 : Nat.log2 16 = 4 := by simp [Nat.log2]
  unfold Cache.new
  simp only [h1, h2]
  rfl

/-- As the code stands, a trace whose first line is a read never yields a
record, whatever the configuration. -/
theorem processTrace_read_first (config : CacheConfig) (address : Nat)
    (rest : List (Char × Nat)) : processTrace config (('R', address) :: rest) = none := by
  unfold processTrace
  cases h1 : Cache.new config.L1BlockSize config.L1Associativity config.L1Size with
  | none => rfl
  | some L1 =>
    cases h2 : Cache.new config.L2BlockSize config.L2Associativity config.L2Size with
    | none => rfl
    | some L2 => simp [runTrace, processAccess, Cache.new_read h1]

set_option maxRecDepth 100000 in
/-- Had the sets been built by `Set(associativity)`, the end-to-end example
would produce the three records of the specification. -/
theorem runTrace_endToEnd_withWays :
    ∃ L1 L2, Cache.new 16 1 1 = some L1 ∧ Cache.new 16 1 8 = some L2 ∧
      runTrace L1.withWays L2.withWays endToEndTrace = some [(2, 2, 5), (1, 0, 5), (3, 0, 5)] :=
  ⟨_, _, Cache.new_16_1_1, Cache.new_16_1_8, by decide⟩

/-! ## The claims -/

/-- C1 (fails on the code): for the levels built by `Cache(16, 1, 1)` and
`Cache(16, 1, 8)` the trace `R 0x0, R 0x0, W 0x0` does not produce the records
(2,2,5), (1,0,5), (3,0,5).  Both constructors return, with 64 and 512 sets, but
every set is left without ways, so the first `L1.read(0)` is undefined
(remainder by zero in `Set::evict`) and the replay produces no record at all. -/
theorem processTrace_endToEnd_undefined :
    ∃ L1 L2, Cache.new 16 1 1 = some L1 ∧ Cache.new 16 1 8 = some L2 ∧
      L1.sets.length = 64 ∧ L2.sets.length = 512 ∧ L1.read 0 = none ∧
      processTrace endToEndConfig endToEndTrace = none :=
  ⟨_, _, Cache.new_16_1_1, Cache.new_16_1_8, List.length_replicate 64 _,
    List.length_replicate 512 _, Cache.new_read Cache.new_16_1_1 0,
    processTrace_read_first endToEndConfig 0 [('R', 0), ('W', 0)]⟩

/-- C2 (fails on the code): the level built by `Cache(16, 1, 1)` has the 64
sets the quotient gives, each with cursor 0, but none of them has
`associativity = 1` ways: every set has no way at all. -/
theorem Cache_new_sets_have_no_ways :
    ∃ c, Cache.new 16 1 1 = some c ∧ c.numSets = 1 * 1024 / (16 * 1) ∧ c.sets.length = 64 ∧
      c.associativity = 1 ∧ ∀ s ∈ c.sets, s.ways.length = 0 ∧ s.evictionCounter = 0 := by
  refine ⟨_, Cache.new_16_1_1, by decide, by simp, rfl, ?_⟩
  intro s hs
  have := (List.mem_replicate.mp hs).2
  subst this
  exact ⟨rfl, rfl⟩

/-- C3: for well-formed levels, a Read event returns a record with memCode 5:
(1,0,5) when L1 holds the line, leaving L1 and L2 unchanged; (2,0,5) when L1
does not and L2 does; (2,2,5) when neither does. -/
theorem read_event_record (L1 L2 : Cache) (a : Nat) (h1 : L1.WellFormed)
    (h2 : L2.WellFormed) :
    ∃ r L1' L2', processAccess L1 L2 'R' a = some (r, L1', L2') ∧ r.2.2 = 5 ∧
      (L1.Holds a → r = (1, 0, 5) ∧ L1' = L1 ∧ L2' = L2) ∧
      (¬ L1.Holds a → L2.Holds a → r = (2, 0, 5)) ∧
      (¬ L1.Holds a → ¬ L2.Holds a → r = (2, 2, 5)) := by
  by_cases hh1 : L1.Holds a
  · exact ⟨_, _, _, processAccess_read_hit L2 h1 hh1, rfl, fun _ => ⟨rfl, rfl, rfl⟩,
      fun hn => absurd hh1 hn, fun hn => absurd hh1 hn⟩
  · by_cases hh2 : L2.Holds a
    · obtain ⟨_, _, _, L2b, _, L1c, _, _, _, _, _, _, _, hp⟩ :=
        processAccess_read_promote h1 h2 hh1 hh2
      exact ⟨_, L1c, L2b, hp, rfl, fun hc => absurd hc hh1, fun _ _ => rfl,
        fun _ hn => absurd hh2 hn⟩
    · obtain ⟨L1a, L2a, _, _, hp⟩ := processAccess_read_miss_miss h1 h2 hh1 hh2
      exact ⟨_, L1a, L2a, hp, rfl, fun hc => absurd hc hh1, fun _ hc => absurd hc hh2,
        fun _ _ => rfl⟩

theorem read_event_record_witness :
    sampleL1.WellFormed ∧ sampleL2.WellFormed ∧
    ∃ r L1' L2', processAccess sampleL1 sampleL2 'R' 20 = some (r, L1', L2') ∧ r.2.2 = 5 ∧
      (sampleL1.Holds 20 → r = (1, 0, 5) ∧ L1' = sampleL1 ∧ L2' = sampleL2) ∧
      (¬ sampleL1.Holds 20 → sampleL2.Holds 20 → r = (2, 0, 5)) ∧
      (¬ sampleL1.Holds 20 → ¬ sampleL2.Holds 20 → r = (2, 2, 5)) :=
  ⟨by decide, by decide, read_event_record sampleL1 sampleL2 20 (by decide) (by decide)⟩

/-- C4: for well-formed levels, a Write event returns (3,0,5) when L1 holds the
line, (4,3,5) when L1 does not and L2 does, (4,4,6) when neither does; so
memCode is 6 exactly when the write misses in both levels. -/
theorem write_event_record (L1 L2 : Cache) (a : Nat) (h1 : L1.WellFormed)
    (h2 : L2.WellFormed) :
    ∃ r L1' L2', processAccess L1 L2 'W' a = some (r, L1', L2') ∧
      (L1.Holds a → r = (3, 0, 5)) ∧
      (¬ L1.Holds a → L2.Holds a → r = (4, 3, 5)) ∧
      (¬ L1.Holds a → ¬ L2.Holds a → r = (4, 4, 6)) ∧
      (r.2.2 = 6 ↔ ¬ L1.Holds a ∧ ¬ L2.Holds a) := by
  by_cases hh1 : L1.Holds a
  · obtain ⟨index, _, _, i, _, _, _, _, hw⟩ := Cache.write_of_holds h1 hh1
    refine ⟨_, _, _, processAccess_write_hit L2 hw, fun _ => rfl, fun hn => absurd hh1 hn,
      fun hn => absurd hh1 hn, ?_⟩
    exact ⟨fun h => absurd h (by decide), fun h => absurd hh1 h.1⟩
  · have hw1 := Cache.write_of_not_holds h1 hh1
    by_cases hh2 : L2.Holds a
    · obtain ⟨index, _, _, i, _, _, _, _, hw2⟩ := Cache.write_of_holds h2 hh2
      refine ⟨_, _, _, processAccess_write_miss hw1 hw2, fun hc => absurd hc hh1, fun _ _ => rfl,
        fun _ hn => absurd hh2 hn, ?_⟩
      exact ⟨fun h => absurd h (by decide), fun h => absurd hh2 h.2⟩
    · have hw2 := Cache.write_of_not_holds h2 hh2
      refine ⟨_, _, _, processAccess_write_miss hw1 hw2, fun hc => absurd hc hh1,
        fun _ hc => absurd hc hh2, fun _ _ => rfl, ?_⟩
      exact ⟨fun _ => ⟨hh1, hh2⟩, fun _ => rfl⟩

theorem write_event_record_witness :
    ∃ r L1' L2', processAccess sampleL1 sampleL2 'W' 24 = some (r, L1', L2') ∧
      (sampleL1.Holds 24 → r = (3, 0, 5)) ∧
      (¬ sampleL1.Holds 24 → sampleL2.Holds 24 → r = (4, 3, 5)) ∧
      (¬ sampleL1.Holds 24 → ¬ sampleL2.Holds 24 → r = (4, 4, 6)) ∧
      (r.2.2 = 6 ↔ ¬ sampleL1.Holds 24 ∧ ¬ sampleL2.Holds 24) :=
  write_event_record sampleL1 sampleL2 24 (by decide) (by decide)

/-- C5: for well-formed levels, a Write event allocates nothing: in both levels
every tag, valid bit and cursor is as before.  On an L1 hit, L2 is unchanged
and L1 differs only in the dirty bit of the first matching way of the target
set, which is set; on an L1 miss, L1 is unchanged, and L2 differs only in that
dirty bit on an L2 hit and not at all on an L2 miss. -/
theorem write_event_frame (L1 L2 : Cache) (a : Nat) (h1 : L1.WellFormed)
    (h2 : L2.WellFormed) :
    ∃ r L1' L2', processAccess L1 L2 'W' a = some (r, L1', L2') ∧
      L1'.skeleton = L1.skeleton ∧ L2'.skeleton = L2.skeleton ∧
      (L1.Holds a → L2' = L2 ∧ ∃ index tag st i, L1.readIndex a = some index ∧
        L1.tagOf a = some tag ∧ L1.sets[index]? = some st ∧ st.FirstMatch tag i ∧
        L1' = L1.withDirty index i) ∧
      (¬ L1.Holds a → L1' = L1 ∧
        (L2.Holds a → ∃ index tag st i, L2.readIndex a = some index ∧
          L2.tagOf a = some tag ∧ L2.sets[index]? = some st ∧ st.FirstMatch tag i ∧
          L2' = L2.withDirty index i) ∧
        (¬ L2.Holds a → L2' = L2)) := by
  by_cases hh1 : L1.Holds a
  · obtain ⟨index, tag, st, i, hidx, htag, hs, hfm, hw⟩ := Cache.write_of_holds h1 hh1
    exact ⟨_, _, _, processAccess_write_hit L2 hw, Cache.withDirty_skeleton L1 index i, rfl,
      fun _ => ⟨rfl, index, tag, st, i, hidx, htag, hs, hfm, rfl⟩, fun hn => absurd hh1 hn⟩
  · have hw1 := Cache.write_of_not_holds h1 hh1
    by_cases hh2 : L2.Holds a
    · obtain ⟨index, tag, st, i, hidx, htag, hs, hfm, hw2⟩ := Cache.write_of_holds h2 hh2
      exact ⟨_, _, _, processAccess_write_miss hw1 hw2, rfl, Cache.withDirty_skeleton L2 index i,
        fun hc => absurd hc hh1,
        fun _ => ⟨rfl, fun _ => ⟨index, tag, st, i, hidx, htag, hs, hfm, rfl⟩,
          fun hn => absurd hh2 hn⟩⟩
    · have hw2 := Cache.write_of_not_holds h2 hh2
      exact ⟨_, _, _, processAccess_write_miss hw1 hw2, rfl, rfl, fun hc => absurd hc hh1,
        fun _ => ⟨rfl, fun hc => absurd hc hh2, fun _ => rfl⟩⟩

theorem write_event_frame_witness :
    ∃ r L1' L2', processAccess sampleL1 sampleL2 'W' 20 = some (r, L1', L2') ∧
      L1'.skeleton = sampleL1.skeleton ∧ L2'.skeleton = sampleL2.skeleton ∧
      (sampleL1.Holds 20 → L2' = sampleL2 ∧ ∃ index tag st i, sampleL1.readIndex 20 = some index ∧
        sampleL1.tagOf 20 = some tag ∧ sampleL1.sets[index]? = some st ∧ st.FirstMatch tag i ∧
        L1' = sampleL1.withDirty index i) ∧
      (¬ sampleL1.Holds 20 → L1' = sampleL1 ∧
        (sampleL2.Holds 20 → ∃ index tag st i, sampleL2.readIndex 20 = some index ∧
          sampleL2.tagOf 20 = some tag ∧ sampleL2.sets[index]? = some st ∧ st.FirstMatch tag i ∧
          L2' = sampleL2.withDirty index i) ∧
        (¬ sampleL2.Holds 20 → L2' = sampleL2)) :=
  write_event_frame sampleL1 sampleL2 20 (by decide) (by decide)

/-- C6: for well-formed levels and an address whose line L1 does not hold and
L2 holds, a Read event returns (2,0,5) and afterwards L1 holds the line: its
target set has a valid way with the address's tag. -/
theorem read_promotion (L1 L2 : Cache) (a : Nat) (h1 : L1.WellFormed) (h2 : L2.WellFormed)
    (hm : ¬ L1.Holds a) (hh : L2.Holds a) :
    ∃ L1' L2', processAccess L1 L2 'R' a = some ((2, 0, 5), L1', L2') ∧ L1'.Holds a := by
  obtain ⟨_, _, _, L2b, _, L1c, _, _, _, _, _, _, hh1c, hp⟩ :=
    processAccess_read_promote h1 h2 hm hh
  exact ⟨L1c, L2b, hp, hh1c⟩

theorem read_promotion_witness :
    (¬ sampleL1.Holds 20 ∧ sampleL2.Holds 20) ∧
    ∃ L1' L2', processAccess sampleL1 sampleL2 'R' 20 = some ((2, 0, 5), L1', L2') ∧
      L1'.Holds 20 :=
  ⟨by decide, read_promotion sampleL1 sampleL2 20 (by decide) (by decide) (by decide)
    (by decide)⟩

/-- C7: on a well-formed level `Cache::read` returns, and it returns 1 exactly
when the target set has a valid way with the address's tag; the whole level is
then unchanged. -/
theorem Cache_read_hit_iff (c : Cache) (a : Nat) (h : c.WellFormed) :
    ∃ r c', c.read a = some (r, c') ∧ (r = 1 ↔ c.Holds a) ∧ (r = 1 → c' = c) := by
  obtain ⟨r, c', hr, _, _, hhit, hmiss⟩ := Cache.read_total h a
  refine ⟨r, c', hr, ⟨fun hr1 => ?_, fun hh => (hhit hh).1⟩, fun hr1 => ?_⟩
  · by_contra hn
    have := hmiss hn
    omega
  · by_cases hh : c.Holds a
    · exact (hhit hh).2
    · have := hmiss hh
      omega

theorem Cache_read_hit_iff_witness :
    sampleL1.WellFormed ∧
    ∃ r c', sampleL1.read 40 = some (r, c') ∧ (r = 1 ↔ sampleL1.Holds 40) ∧
      (r = 1 → c' = sampleL1) :=
  ⟨by decide, Cache_read_hit_iff sampleL1 40 (by decide)⟩

/-- C8: on a well-formed level, when `read(a)` returns 2 the target set then has
a valid clean way with the tag of `a` and every other set is as before; and after
any `read(a)`, for every address of the same block (same tag and index) the next
read returns 1 without changing the level and the next write returns 3. -/
theorem Cache_read_then_hit (c : Cache) (a : Nat) (h : c.WellFormed) :
    ∃ r c', c.read a = some (r, c') ∧
      (r = 2 → ∃ index tag st', c.readIndex a = some index ∧ c.tagOf a = some tag ∧
        c'.sets[index]? = some st' ∧
        (∃ w ∈ st'.ways, w.valid = true ∧ w.dirty = false ∧ w.tag = tag) ∧
        ∀ k, k ≠ index → c'.sets[k]? = c.sets[k]?) ∧
      ∀ a', c.tagOf a' = c.tagOf a → c.readIndex a' = c.readIndex a →
        c'.read a' = some (1, c') ∧ ∃ c'', c'.write a' = some (3, c'') := by
  have key : ∀ c' : Cache, c'.WellFormed → c'.Holds a →
      c'.indexBits = c.indexBits → c'.blockOffsetBits = c.blockOffsetBits →
      ∀ a', c.tagOf a' = c.tagOf a → c.readIndex a' = c.readIndex a →
        c'.read a' = some (1, c') ∧ ∃ c'', c'.write a' = some (3, c'') := by
    intro c' hwf hh hib hbo a' ht hi
    have ht' : c'.tagOf a' = c'.tagOf a := by
      simpa only [Cache.tagOf, hib, hbo] using ht
    have hi' : c'.readIndex a' = c'.readIndex a := by
      simpa only [Cache.readIndex, hib, hbo] using hi
    have hh' : c'.Holds a' := by
      simpa only [Cache.Holds, Cache.targetSet, ht', hi'] using hh
    obtain ⟨_, _, _, _, _, _, _, _, hw⟩ := Cache.write_of_holds hwf hh'
    exact ⟨Cache.read_of_holds hwf hh', _, hw⟩
  by_cases hh : c.Holds a
  · refine ⟨1, c, Cache.read_of_holds h hh, fun h12 => absurd h12 (by decide), ?_⟩
    exact key c h hh rfl rfl
  · obtain ⟨index, tag, st, i, cur, hidx, htag, hs, hi, hcur, hr⟩ := Cache.read_of_not_holds h hh
    obtain ⟨r, c', hr', hwf, hh', _, _⟩ := Cache.read_total h a
    rw [hr] at hr'
    cases hr'
    have hk : index < c.sets.length := (List.getElem?_eq_some.mp hs).1
    have hlen : st.ways.length = c.associativity :=
      (h.2.1 st (List.mem_iff_getElem?.mpr ⟨_, hs⟩)).1
    refine ⟨2, _, hr, fun _ => ⟨index, tag, ⟨st.ways.set i ⟨tag, true, false⟩, cur⟩, hidx, htag,
      by simp [List.getElem?_set, hk], ⟨⟨tag, true, false⟩, ?_, rfl, rfl, rfl⟩, ?_⟩, ?_⟩
    · exact List.mem_iff_getElem?.mpr ⟨i, by simp [List.getElem?_set, hlen, hi]⟩
    · intro k hk'
      simp [List.getElem?_set, Ne.symm hk']
    · exact key _ hwf hh' rfl rfl

theorem Cache_read_then_hit_witness :
    sampleL1.WellFormed ∧
    ∃ r c', sampleL1.read 24 = some (r, c') ∧
      (r = 2 → ∃ index tag st', sampleL1.readIndex 24 = some index ∧
        sampleL1.tagOf 24 = some tag ∧ c'.sets[index]? = some st' ∧
        (∃ w ∈ st'.ways, w.valid = true ∧ w.dirty = false ∧ w.tag = tag) ∧
        ∀ k, k ≠ index → c'.sets[k]? = sampleL1.sets[k]?) ∧
      ∀ a', sampleL1.tagOf a' = sampleL1.tagOf 24 → sampleL1.readIndex a' = sampleL1.readIndex 24 →
        c'.read a' = some (1, c') ∧ ∃ c'', c'.write a' = some (3, c'') :=
  ⟨by decide, Cache_read_then_hit sampleL1 24 (by decide)⟩

/-- C9: on a well-formed level whose target set has a valid way with the
address's tag, `Cache::write` returns 3; the first matching way is dirty
afterwards with its tag and valid bit kept, every other way, every cursor, and
so every tag and valid bit of the level is as before. -/
theorem Cache_write_hit (c : Cache) (a : Nat) (h : c.WellFormed) (hh : c.Holds a) :
    ∃ index tag st i w c', c.readIndex a = some index ∧ c.tagOf a = some tag ∧
      c.sets[index]? = some st ∧ st.FirstMatch tag i ∧ st.ways[i]? = some w ∧
      c.write a = some (3, c') ∧
      c'.way index i = some { w with dirty := true } ∧
      (∀ k j, ¬ (k = index ∧ j = i) → c'.way k j = c.way k j) ∧
      (∀ k, c'.cursor k = c.cursor k) ∧
      c'.skeleton = c.skeleton ∧ c' = c.withDirty index i := by
  obtain ⟨index, tag, st, i, hidx, htag, hs, hfm, hw⟩ := Cache.write_of_holds h hh
  obtain ⟨w, hwi, _, _⟩ := hfm.1
  refine ⟨index, tag, st, i, w, _, hidx, htag, hs, hfm, hwi, hw, ?_, ?_,
    Cache.withDirty_cursor c index i, Cache.withDirty_skeleton c index i, rfl⟩
  · rw [Cache.withDirty_way hs hwi]; simp
  · intro k j hkj
    rw [Cache.withDirty_way hs hwi, if_neg hkj]

theorem Cache_write_hit_witness :
    (sampleL1.WellFormed ∧ sampleL1.Holds 40) ∧
    ∃ index tag st i w c', sampleL1.readIndex 40 = some index ∧ sampleL1.tagOf 40 = some tag ∧
      sampleL1.sets[index]? = some st ∧ st.FirstMatch tag i ∧ st.ways[i]? = some w ∧
      sampleL1.write 40 = some (3, c') ∧
      c'.way index i = some { w with dirty := true } ∧
      (∀ k j, ¬ (k = index ∧ j = i) → c'.way k j = sampleL1.way k j) ∧
      (∀ k, c'.cursor k = sampleL1.cursor k) ∧
      c'.skeleton = sampleL1.skeleton ∧ c' = sampleL1.withDirty index i :=
  ⟨by decide, Cache_write_hit sampleL1 40 (by decide) (by decide)⟩

/-- C10: on a well-formed level whose target set has no valid way with the
address's tag, `Cache::write` returns 4 and the level is exactly as before. -/
theorem Cache_write_miss (c : Cache) (a : Nat) (h : c.WellFormed) (hm : ¬ c.Holds a) :
    c.write a = some (4, c) :=
  Cache.write_of_not_holds h hm

theorem Cache_write_miss_witness :
    (sampleL1.WellFormed ∧ ¬ sampleL1.Holds 24) ∧ sampleL1.write 24 = some (4, sampleL1) :=
  ⟨by decide, Cache_write_miss sampleL1 24 (by decide) (by decide)⟩

/-! ## Replacing one way of one set -/

/-- Way by way, replacing way `i` of set `index` changes that way only. -/
theorem Cache.way_replace {c : Cache} {index i : Nat} {st : Set} (w' : CacheBlock) (cur : Nat)
    (hs : c.sets[index]? = some st) (hi : i < st.ways.length) (k j : Nat) :
    Cache.way { c with sets := c.sets.set index ⟨st.ways.set i w', cur⟩ } k j =
      if k = index ∧ j = i then some w' else c.way k j := by
  have hk : index < c.sets.length := (List.getElem?_eq_some.mp hs).1
  simp only [Cache.way, List.getElem?_set]
  by_cases h1 : index = k
  · subst h1
    by_cases h2 : i = j
    · subst h2; simp [hk, hi]
    · have h2' : ¬ j = i := fun e => h2 e.symm
      simp [hk, hs, h2, h2', List.getElem?_set]
  · have h1' : ¬ k = index := fun e => h1 e.symm
    simp [h1, h1']

theorem Cache.cursor_replace {c : Cache} {index : Nat} {st : Set} (ws : List CacheBlock)
    (cur : Nat) (hs : c.sets[index]? = some st) (k : Nat) :
    Cache.cursor { c with sets := c.sets.set index ⟨ws, cur⟩ } k =
      if k = index then some cur else c.cursor k := by
  have hk : index < c.sets.length := (List.getElem?_eq_some.mp hs).1
  simp only [Cache.cursor, List.getElem?_set]
  by_cases h1 : index = k
  · subst h1; simp [hk]
  · have h1' : ¬ k = index := fun e => h1 e.symm
    simp [h1, h1']

theorem Cache.sameGeometry_replace (c : Cache) (index : Nat) (s' : Set) :
    c.SameGeometry { c with sets := c.sets.set index s' } :=
  ⟨rfl, rfl, rfl, rfl, rfl, rfl, by simp⟩

theorem Cache.sameGeometry_refl (c : Cache) : c.SameGeometry c :=
  ⟨rfl, rfl, rfl, rfl, rfl, rfl, rfl⟩

theorem Cache.withDirty_sameGeometry (c : Cache) (index i : Nat) :
    c.SameGeometry (c.withDirty index i) := by
  cases hs : c.sets[index]? with
  | none => simpa only [Cache.withDirty, hs] using c.sameGeometry_refl
  | some st =>
    cases hw : st.ways[i]? with
    | none => simpa only [Cache.withDirty, hs, hw] using c.sameGeometry_refl
    | some w =>
      rw [Cache.withDirty_eq hs hw]
      exact c.sameGeometry_replace index _

/-- Whatever a read returns, the level stays well formed with the same
geometry. -/
theorem Cache.read_result {c : Cache} (h : c.WellFormed) {a r : Nat} {c' : Cache}
    (hr : c.read a = some (r, c')) : c'.WellFormed ∧ c.SameGeometry c' := by
  obtain ⟨r0, c0, hr0, hwf, _, _, _⟩ := Cache.read_total h a
  rw [hr] at hr0
  cases hr0
  refine ⟨hwf, ?_⟩
  by_cases hh : c.Holds a
  · have := Cache.read_of_holds h hh
    rw [hr] at this
    cases this
    exact c.sameGeometry_refl
  · obtain ⟨index, _, _, _, _, _, _, _, _, _, hr1⟩ := Cache.read_of_not_holds h hh
    rw [hr] at hr1
    cases hr1
    exact c.sameGeometry_replace index _

/-- Whatever a write returns, the level stays well formed with the same
geometry. -/
theorem Cache.write_result {c : Cache} (h : c.WellFormed) {a r : Nat} {c' : Cache}
    (hr : c.write a = some (r, c')) : c'.WellFormed ∧ c.SameGeometry c' := by
  by_cases hh : c.Holds a
  · obtain ⟨index, _, _, i, _, _, _, _, hw⟩ := Cache.write_of_holds h hh
    rw [hr] at hw
    cases hw
    exact ⟨Cache.withDirty_wellFormed h index i, c.withDirty_sameGeometry index i⟩
  · have hw := Cache.write_of_not_holds h hh
    rw [hr] at hw
    cases hw
    exact ⟨h, c.sameGeometry_refl⟩

/-- Whatever `evictAndMove` returns, both levels stay well formed with the same
geometry. -/
theorem Cache.evictAndMove_result {c lower : Cache} (h : c.WellFormed)
    (hl : lower.WellFormed) {a e : Nat} {c' lower' : Cache}
    (hr : c.evictAndMove a lower = some (e, c', lower')) :
    c'.WellFormed ∧ c.SameGeometry c' ∧ lower'.WellFormed ∧ lower.SameGeometry lower' := by
  obtain ⟨e0, c0, l0, he, hwf, hwfl⟩ := Cache.evictAndMove_total h hl a
  obtain ⟨index, st, w, l1, _, _, _, hd, hnd, _, he1⟩ := Cache.evictAndMove_spec h hl a
  rw [hr] at he he1
  cases he
  cases he1
  refine ⟨hwf, c.sameGeometry_replace index _, hwfl, ?_⟩
  cases hdw : w.dirty with
  | false => rw [hnd hdw]; exact lower.sameGeometry_refl
  | true =>
    obtain ⟨r, hw⟩ := hd hdw
    exact (Cache.write_result hl hw).2

theorem Cache.WellFormed.of_sameGeometry {c c' : Cache} (h : c'.WellFormed)
    (hg : c.SameGeometry c') :
    ∀ s ∈ c'.sets, s.ways.length = c.associativity ∧ s.evictionCounter < c.associativity := by
  intro s hs
  have := h.2.1 s hs
  rw [hg.2.2.1] at this
  exact this

/-- C16: for a set with `A >= 1` ways and a cursor below `A`, `Set::evict`
returns the cursor, advances it to `(cursor + 1) mod A` and leaves the ways
as they are; the cursor then stays below `A`, and below the associativity in
every set of a well-formed level, under `insertBlock`, `Cache::read`,
`Cache::write` and `Cache::evictAndMove`, all of which return (no remainder by
zero occurs). -/
theorem cursor_stays_in_range (s : Set) (A tag : Nat) (c lower : Cache) (a : Nat)
    (hA : 1 ≤ A) (hlen : s.ways.length = A) (hcur : s.evictionCounter < A)
    (hc : c.WellFormed) (hl : lower.WellFormed) :
    s.evict = some (s.evictionCounter,
      { s with evictionCounter := (s.evictionCounter + 1) % A }) ∧
    (s.evictionCounter + 1) % A < A ∧
    (∃ s', s.insertBlock tag = some s' ∧ s'.ways.length = A ∧ s'.evictionCounter < A) ∧
    (∃ r c', c.read a = some (r, c') ∧
      ∀ s' ∈ c'.sets, s'.ways.length = c.associativity ∧ s'.evictionCounter < c.associativity) ∧
    (∃ r c', c.write a = some (r, c') ∧
      ∀ s' ∈ c'.sets, s'.ways.length = c.associativity ∧ s'.evictionCounter < c.associativity) ∧
    (∃ e c' lower', c.evictAndMove a lower = some (e, c', lower') ∧
      (∀ s' ∈ c'.sets, s'.ways.length = c.associativity ∧
        s'.evictionCounter < c.associativity) ∧
      ∀ s' ∈ lower'.sets, s'.ways.length = lower.associativity ∧
        s'.evictionCounter < lower.associativity) := by
  have hA0 : A ≠ 0 := by omega
  refine ⟨?_, Nat.mod_lt _ (by omega), ?_, ?_, ?_, ?_⟩
  · simp [Set.evict, hlen, hA0]
  · obtain ⟨i, cur, _, hcur', hins⟩ := s.insertBlock_spec tag A hA hlen hcur
    exact ⟨_, hins, by simpa using hlen, hcur'⟩
  · obtain ⟨r, c', hr, _⟩ := Cache.read_total hc a
    obtain ⟨hwf, hg⟩ := Cache.read_result hc hr
    exact ⟨r, c', hr, hwf.of_sameGeometry hg⟩
  · obtain ⟨r, c', hr, _⟩ := Cache.write_total hc a
    obtain ⟨hwf, hg⟩ := Cache.write_result hc hr
    exact ⟨r, c', hr, hwf.of_sameGeometry hg⟩
  · obtain ⟨e, c', l', hr, _⟩ := Cache.evictAndMove_total hc hl a
    obtain ⟨hwf, hg, hwfl, hgl⟩ := Cache.evictAndMove_result hc hl hr
    exact ⟨e, c', l', hr, hwf.of_sameGeometry hg, hwfl.of_sameGeometry hgl⟩

theorem cursor_stays_in_range_witness :
    (⟨[⟨5, true, true⟩, ⟨7, true, false⟩], 1⟩ : Set).evict
      = some (1, ⟨[⟨5, true, true⟩, ⟨7, true, false⟩], 0⟩) ∧
    (∃ e c' lower', sampleL1.evictAndMove 40 sampleL2 = some (e, c', lower') ∧
      (∀ s' ∈ c'.sets, s'.ways.length = 2 ∧ s'.evictionCounter < 2) ∧
      ∀ s' ∈ lower'.sets, s'.ways.length = 1 ∧ s'.evictionCounter < 1) :=
  have h := cursor_stays_in_range ⟨[⟨5, true, true⟩, ⟨7, true, false⟩], 1⟩ 2 9 sampleL1 sampleL2 40
    (by decide) rfl (by decide) (by decide) (by decide)
  ⟨h.1, h.2.2.2.2.2⟩

/-- C14: on well-formed levels `evictAndMove(address, nextLevel)` returns the
cursor of the target set and advances it modulo the associativity; the next
level is the result of `nextLevel.write(address)` when the way at the cursor
was dirty and is unchanged otherwise; that way ends invalid and clean with its
tag kept, every other way and every other set is unchanged, and no way has
become valid. -/
theorem evictAndMove_effect (c lower : Cache) (a : Nat) (h : c.WellFormed)
    (hl : lower.WellFormed) :
    ∃ index st w c' lower', c.readIndex a = some index ∧ c.sets[index]? = some st ∧
      st.ways[st.evictionCounter]? = some w ∧
      c.evictAndMove a lower = some (st.evictionCounter, c', lower') ∧
      c'.cursor index = some ((st.evictionCounter + 1) % c.associativity) ∧
      (w.dirty = true → ∃ r, lower.write a = some (r, lower')) ∧
      (w.dirty = false → lower' = lower) ∧
      c'.way index st.evictionCounter = some { w with valid := false, dirty := false } ∧
      (∀ k j, ¬ (k = index ∧ j = st.evictionCounter) → c'.way k j = c.way k j) ∧
      (∀ k, k ≠ index → c'.sets[k]? = c.sets[k]?) ∧
      (∀ k j w', c'.way k j = some w' → w'.valid = true → c.way k j = some w') ∧
      c.SameGeometry c' := by
  obtain ⟨index, st, w, lower', hidx, hs, hw, hd, hnd, _, he⟩ := Cache.evictAndMove_spec h hl a
  have hi : st.evictionCounter < st.ways.length := (List.getElem?_eq_some.mp hw).1
  have hway := Cache.way_replace { w with valid := false, dirty := false }
    ((st.evictionCounter + 1) % c.associativity) hs hi
  refine ⟨index, st, w, _, lower', hidx, hs, hw, he, ?_, hd, hnd, ?_, ?_, ?_, ?_,
    c.sameGeometry_replace index _⟩
  · rw [Cache.cursor_replace _ _ hs]; simp
  · rw [hway]; simp
  · intro k j hkj
    rw [hway, if_neg hkj]
  · intro k hk
    simp [List.getElem?_set, Ne.symm hk]
  · intro k j w' hw' hv
    rw [hway] at hw'
    by_cases hkj : k = index ∧ j = st.evictionCounter
    · rw [if_pos hkj] at hw'
      cases hw'
      cases hv
    · rw [if_neg hkj] at hw'
      exact hw'

theorem evictAndMove_effect_witness :
    ∃ index st w c' lower', sampleL1.readIndex 40 = some index ∧
      sampleL1.sets[index]? = some st ∧
      st.ways[st.evictionCounter]? = some w ∧
      sampleL1.evictAndMove 40 sampleL2 = some (st.evictionCounter, c', lower') ∧
      c'.cursor index = some ((st.evictionCounter + 1) % sampleL1.associativity) ∧
      (w.dirty = true → ∃ r, sampleL2.write 40 = some (r, lower')) ∧
      (w.dirty = false → lower' = sampleL2) ∧
      c'.way index st.evictionCounter = some { w with valid := false, dirty := false } ∧
      (∀ k j, ¬ (k = index ∧ j = st.evictionCounter) → c'.way k j = sampleL1.way k j) ∧
      (∀ k, k ≠ index → c'.sets[k]? = sampleL1.sets[k]?) ∧
      (∀ k j w', c'.way k j = some w' → w'.valid = true → sampleL1.way k j = some w') ∧
      sampleL1.SameGeometry c' :=
  evictAndMove_effect sampleL1 sampleL2 40 (by decide) (by decide)

/-- C19: on every level the constructor builds, and for every address, the
index computed by `read` and `evictAndMove` and the index computed by `write`
through `indexMask` are the same number, it is below `numSets`, which is the
number of sets, so `sets[index]` is in range (whether or not `numSets` is a
power of two), the tag is computed as well, and `indexMask` is
`(1 << indexBits) - 1` with `indexBits` the integer part of `log2(numSets)`. -/
theorem index_in_range (blockSize associativity totalSize : Nat) (c : Cache) (address : Nat)
    (h : Cache.new blockSize associativity totalSize = some c) :
    ∃ index tag st, c.readIndex address = some index ∧ c.writeIndex address = some index ∧
      c.tagOf address = some tag ∧ index < c.numSets ∧ c.sets.length = c.numSets ∧
      c.sets[index]? = some st ∧ 1 ≤ c.numSets ∧ c.indexBits = Nat.log2 c.numSets ∧
      c.indexMask = (1 <<< c.indexBits) - 1 := by
  have hwf := Cache.new_withWays_wellFormed h
  obtain ⟨index, tag, _, hidx, hwidx, htag, hs, _, _⟩ := hwf.decode address
  have hlen : c.sets.length = c.numSets := by
    rw [(Cache.new_eq_some h).1, List.length_replicate, (Cache.new_eq_some h).2.1]
  have hlt : index < c.numSets := by
    have := (List.getElem?_eq_some.mp hs).1
    simpa [Cache.withWays] using this
  obtain ⟨st, hst⟩ : ∃ st, c.sets[index]? = some st :=
    ⟨_, List.getElem?_eq_getElem (by omega)⟩
  refine ⟨index, tag, st, hidx, hwidx, htag, hlt, hlen, hst, by omega, ?_, ?_⟩
  · unfold Cache.new at h
    split at h
    · by_cases hz : totalSize * 1024 / (blockSize * associativity) = 0
      · simp [hz] at h
      · simp only [hz, if_false, Option.some.injEq] at h
        subst h
        rfl
    · cases h
  · have := hwf.2.2.2.2.2.2
    rw [Nat.one_shiftLeft]
    exact this

theorem Cache.new_16_3_1 :
    Cache.new 16 3 1 = some ⟨List.replicate 21 Set.default, 16, 21, 3, 4, 4, 15⟩ := by
  have h1 : Nat.log2 (1 * 1024 / (16 * 3)) = 4 := by simp [Nat.log2]
  have h2 : Nat.log2 16 = 4 := by simp [Nat.log2]
  unfold Cache.new
  simp only [h1, h2]
  rfl

theorem index_in_range_witness :
    ∃ index tag st, Cache.readIndex ⟨List.replicate 21 Set.default, 16, 21, 3, 4, 4, 15⟩ 4294967295
        = some index ∧
      Cache.writeIndex ⟨List.replicate 21 Set.default, 16, 21, 3, 4, 4, 15⟩ 4294967295
        = some index ∧
      Cache.tagOf ⟨List.replicate 21 Set.default, 16, 21, 3, 4, 4, 15⟩ 4294967295 = some tag ∧
      index < 21 ∧ (List.replicate 21 Set.default).length = 21 ∧
      (List.replicate 21 Set.default)[index]? = some st ∧ 1 ≤ 21 ∧ 4 = Nat.log2 21 ∧
      15 = (1 <<< 4) - 1 :=
  index_in_range 16 3 1 _ 4294967295 Cache.new_16_3_1

/-! ## Geometry of a constructed level -/

theorem Cache.new_fields {blockSize associativity totalSize : Nat} {c : Cache}
    (h : Cache.new blockSize associativity totalSize = some c) :
    c.blockSize = blockSize ∧
      c.numSets = totalSize * 1024 / (blockSize * associativity) ∧
      c.associativity = associativity ∧
      c.indexBits = Nat.log2 (totalSize * 1024 / (blockSize * associativity)) ∧
      c.blockOffsetBits = Nat.log2 blockSize ∧
      totalSize * 1024 / (blockSize * associativity) ≠ 0 ∧ blockSize * associativity ≠ 0 := by
  unfold Cache.new at h
  split at h
  · rename_i hg
    by_cases hz : totalSize * 1024 / (blockSize * associativity) = 0
    · simp [hz] at h
    · simp only [hz, if_false, Option.some.injEq] at h
      subst h
      exact ⟨rfl, rfl, rfl, rfl, rfl, hz, hg.2.2⟩
  · cases h

theorem Cache.new_16_15_1 :
    Cache.new 16 15 1 = some ⟨List.replicate 4 Set.default, 16, 4, 15, 2, 4, 3⟩ := by
  have h1 : Nat.log2 (1 * 1024 / (16 * 15)) = 2 := by simp [Nat.log2]
  have h2 : Nat.log2 16 = 4 := by simp [Nat.log2]
  unfold Cache.new
  simp only [h1, h2]
  rfl

/-- C17 as stated fails: `Cache(16, 15, 1)` has `blockSize = 2^4` and
`numSets = 1024 / 240 = 4 = 2^2`, both powers of two, yet
`numSets * blockSize * associativity = 960`, not the capacity 1024. -/
theorem capacity_not_exact :
    ∃ c, Cache.new 16 15 1 = some c ∧ c.blockSize = 2 ^ 4 ∧ c.numSets = 2 ^ 2 ∧
      c.numSets * c.blockSize * c.associativity = 960 ∧
      c.numSets * c.blockSize * c.associativity ≠ 1 * 1024 :=
  ⟨_, Cache.new_16_15_1, by decide, by decide, by decide, by decide⟩

/-- C17, amended: for every level the constructor builds,
`numSets * blockSize * associativity` never exceeds `totalSize * 1024`, and it
equals `totalSize * 1024` exactly when `blockSize * associativity` divides
`totalSize * 1024`. -/
theorem capacity_exact_iff (blockSize associativity totalSize : Nat) (c : Cache)
    (h : Cache.new blockSize associativity totalSize = some c) :
    c.numSets * c.blockSize * c.associativity ≤ totalSize * 1024 ∧
      (c.numSets * c.blockSize * c.associativity = totalSize * 1024 ↔
        blockSize * associativity ∣ totalSize * 1024) := by
  obtain ⟨hbs, hns, hA, _, _, _, _⟩ := Cache.new_fields h
  rw [hbs, hns, hA, Nat.mul_assoc]
  refine ⟨Nat.div_mul_le_self _ _, ⟨fun he => ?_, fun hd => Nat.div_mul_cancel hd⟩⟩
  exact Dvd.intro_left _ he

theorem capacity_exact_iff_witness :
    (64 : Nat) * 16 * 1 ≤ 1 * 1024 ∧ ((64 : Nat) * 16 * 1 = 1 * 1024 ↔ 16 * 1 ∣ 1 * 1024) :=
  capacity_exact_iff 16 1 1 _ Cache.new_16_1_1

/-- C12: for a level with `blockSize = 2^o`, `numSets = 2^i` (an `int`, so
below `2^31`), bit widths computed as the constructor does and `o + i < 32`,
and for every 32-bit address, `read`, `write` and `evictAndMove` compute
`tag = address >> (o+i)` and `index = (address >> o) & (2^i - 1)`; with
`offset = address mod 2^o`, `(tag << (o+i)) | (index << o) | offset` is the
address again (no piece exceeding 32 bits), `index < numSets` and
`offset < blockSize`. -/
theorem address_roundtrip (c : Cache) (o i a : Nat) (hbs : c.blockSize = 2 ^ o)
    (hns : c.numSets = 2 ^ i) (hbo : c.blockOffsetBits = Nat.log2 c.blockSize)
    (hib : c.indexBits = Nat.log2 c.numSets) (hmask : c.indexMask = (1 <<< c.indexBits) - 1)
    (hoi : o + i < 32) (hint : c.numSets < 2 ^ 31) (ha : a < 2 ^ 32) :
    ∃ index tag, c.readIndex a = some index ∧ c.writeIndex a = some index ∧
      c.tagOf a = some tag ∧ tag = a >>> (o + i) ∧ index = (a >>> o) &&& (2 ^ i - 1) ∧
      (tag <<< (o + i)) ||| (index <<< o) ||| (a % 2 ^ o) = a ∧
      tag <<< (o + i) < 2 ^ 32 ∧ index <<< o < 2 ^ 32 ∧
      index < c.numSets ∧ a % 2 ^ o < c.blockSize := by
  rw [hbs, Nat.log2_two_pow] at hbo
  rw [hns, Nat.log2_two_pow] at hib
  rw [hib, Nat.one_shiftLeft] at hmask
  have hi31 : i < 31 := by
    rw [hns] at hint
    exact (Nat.pow_lt_pow_iff_right (by decide : 1 < 2)).mp hint
  have hround : ((a >>> (o + i)) <<< (o + i)) ||| (((a >>> o) &&& (2 ^ i - 1)) <<< o)
      ||| (a % 2 ^ o) = a := by
    apply Nat.eq_of_testBit_eq
    intro j
    simp only [Nat.testBit_or, Nat.testBit_shiftLeft, Nat.testBit_shiftRight, Nat.testBit_and,
      Nat.testBit_two_pow_sub_one, Nat.testBit_mod_two_pow]
    by_cases h1 : j < o
    · have h2 : ¬ j ≥ o + i := by omega
      have h3 : ¬ j ≥ o := by omega
      simp [h1, h2, h3]
    · by_cases h2 : j < o + i
      · have h3 : ¬ j ≥ o + i := by omega
        have h4 : j ≥ o := by omega
        have h5 : j - o < i := by omega
        have h6 : o + (j - o) = j := by omega
        simp [h1, h3, h4, h5, h6]
      · have h3 : j ≥ o + i := by omega
        have h4 : o + i + (j - (o + i)) = j := by omega
        have h5 : ¬ j - o < i := by omega
        simp [h1, h3, h4, h5]
  have htagle : (a >>> (o + i)) <<< (o + i) ≤ a := by
    rw [Nat.shiftLeft_eq, Nat.shiftRight_eq_div_pow]
    exact Nat.div_mul_le_self _ _
  have hidxle : ((a >>> o) &&& (2 ^ i - 1)) <<< o ≤ a := by
    rw [Nat.shiftLeft_eq, Nat.shiftRight_eq_div_pow, Nat.and_pow_two_sub_one_eq_mod]
    calc a / 2 ^ o % 2 ^ i * 2 ^ o ≤ a / 2 ^ o * 2 ^ o :=
          Nat.mul_le_mul_right _ (Nat.mod_le _ _)
      _ ≤ a := Nat.div_mul_le_self _ _
  refine ⟨(a >>> o) &&& (2 ^ i - 1), a >>> (o + i), ?_, ?_, ?_, rfl, rfl, hround,
    by omega, by omega, ?_, ?_⟩
  · have hbo32 : o < 32 := by omega
    simp [Cache.readIndex, hbo, hib, hbo32, hi31, Nat.one_shiftLeft]
  · have hbo32 : o < 32 := by omega
    simp [Cache.writeIndex, hbo, hmask, hbo32]
  · simp [Cache.tagOf, hbo, hib, hoi]
  · rw [hns, Nat.and_pow_two_sub_one_eq_mod]
    exact Nat.mod_lt _ (Nat.two_pow_pos i)
  · rw [hbs]
    exact Nat.mod_lt _ (Nat.two_pow_pos o)

theorem address_roundtrip_witness :
    ∃ index tag, sampleL1.readIndex 4294967295 = some index ∧
      sampleL1.writeIndex 4294967295 = some index ∧
      sampleL1.tagOf 4294967295 = some tag ∧ tag = 4294967295 >>> (2 + 1) ∧
      index = (4294967295 >>> 2) &&& (2 ^ 1 - 1) ∧
      (tag <<< (2 + 1)) ||| (index <<< 2) ||| (4294967295 % 2 ^ 2) = 4294967295 ∧
      tag <<< (2 + 1) < 2 ^ 32 ∧ index <<< 2 < 2 ^ 32 ∧
      index < sampleL1.numSets ∧ 4294967295 % 2 ^ 2 < sampleL1.blockSize :=
  address_roundtrip sampleL1 2 1 4294967295 (by decide) (by decide) (by simp [sampleL1, Nat.log2])
    (by simp [sampleL1, Nat.log2]) (by decide) (by decide) (by decide) (by decide)

/-! ## Where a read miss allocates -/

theorem findEmptyBlockFrom_eq_none {ws : List CacheBlock} {i : Nat} :
    findEmptyBlockFrom ws i = none ↔ ∀ w ∈ ws, w.valid = true := by
  induction ws generalizing i with
  | nil => simp [findEmptyBlockFrom]
  | cons w ws ih =>
    cases hv : w.valid
    · simp [findEmptyBlockFrom, hv]
    · simp [findEmptyBlockFrom, hv, ih]

theorem findEmptyBlockFrom_first {ws : List CacheBlock} {i k : Nat}
    (h : findEmptyBlockFrom ws i = some k) :
    ∃ j w, k = i + j ∧ ws[j]? = some w ∧ w.valid = false ∧
      ∀ j' < j, ∀ w', ws[j']? = some w' → w'.valid = true := by
  induction ws generalizing i with
  | nil => simp [findEmptyBlockFrom] at h
  | cons w ws ih =>
    cases hv : w.valid
    · simp [findEmptyBlockFrom, hv] at h
      exact ⟨0, w, by omega, by simp, hv, by omega⟩
    · simp only [findEmptyBlockFrom, hv, Bool.not_true, Bool.false_eq_true, if_false] at h
      obtain ⟨j, w1, hk, hj, hv1, hmin⟩ := ih h
      refine ⟨j + 1, w1, by omega, by simpa using hj, hv1, ?_⟩
      intro j' hj' w' hw'
      cases j' with
      | zero => simp at hw'; subst hw'; exact hv
      | succ n => exact hmin n (by omega) w' (by simpa using hw')

/-- The allocation of `insertBlock`, in full: either way `p` is the first
invalid way and the cursor stays, or every way is valid, `p` is the cursor and
the cursor advances. -/
theorem Set.insertBlock_detail (s : Set) (tag A : Nat) (hA : 1 ≤ A)
    (hlen : s.ways.length = A) (hcur : s.evictionCounter < A) :
    ∃ p cur, p < A ∧ cur < A ∧
      s.insertBlock tag = some ⟨s.ways.set p ⟨tag, true, false⟩, cur⟩ ∧
      (((∃ w0, s.ways[p]? = some w0 ∧ w0.valid = false) ∧
          (∀ j < p, ∀ w, s.ways[j]? = some w → w.valid = true) ∧
          cur = s.evictionCounter) ∨
        ((∀ w ∈ s.ways, w.valid = true) ∧ p = s.evictionCounter ∧
          cur = (s.evictionCounter + 1) % A)) := by
  unfold Set.insertBlock
  cases he : s.findEmptyBlock with
  | some e =>
    obtain ⟨j, w0, hk, hj, hv, hmin⟩ := findEmptyBlockFrom_first he
    have hej : e = j := by omega
    subst hej
    have hlt : e < s.ways.length := (List.getElem?_eq_some.mp hj).1
    exact ⟨e, s.evictionCounter, by omega, hcur, by simp [Set.fill, hlt],
      Or.inl ⟨⟨w0, hj, hv⟩, hmin, rfl⟩⟩
  | none =>
    have hall := findEmptyBlockFrom_eq_none.mp he
    have hA0 : A ≠ 0 := by omega
    refine ⟨s.evictionCounter, (s.evictionCounter + 1) % A, hcur, Nat.mod_lt _ (by omega), ?_,
      Or.inr ⟨hall, rfl, rfl⟩⟩
    simp [Set.evict, Set.fill, hlen, hcur, hA0]

/-- A read miss, in full: the target set gets the line in the way chosen by
`insertBlock`, nothing else changes. -/
theorem Cache.read_miss_detail {c : Cache} (h : c.WellFormed) {a : Nat} (hh : ¬ c.Holds a) :
    ∃ index tag st p cur, c.readIndex a = some index ∧ c.tagOf a = some tag ∧
      c.sets[index]? = some st ∧ st.ways.length = c.associativity ∧
      p < c.associativity ∧ cur < c.associativity ∧
      (∀ w ∈ st.ways, ¬ (w.valid = true ∧ w.tag = tag)) ∧
      c.read a = some (2, { c with
        sets := c.sets.set index ⟨st.ways.set p ⟨tag, true, false⟩, cur⟩ }) ∧
      (((∃ w0, st.ways[p]? = some w0 ∧ w0.valid = false) ∧
          (∀ j < p, ∀ w, st.ways[j]? = some w → w.valid = true) ∧
          cur = st.evictionCounter) ∨
        ((∀ w ∈ st.ways, w.valid = true) ∧ p = st.evictionCounter ∧
          cur = (st.evictionCounter + 1) % c.associativity)) := by
  obtain ⟨index, tag, st, hidx, _, htag, hs, hlen, hcur⟩ := h.decode a
  have hnone : ∀ w ∈ st.ways, ¬ (w.valid = true ∧ w.tag = tag) := by
    intro w hw hvt
    exact hh ((Cache.holds_iff hidx htag hs).mpr ⟨w, hw, hvt.1, hvt.2⟩)
  have hf : (st.findBlock tag).isSome = false := by
    cases hb : (st.findBlock tag).isSome
    · rfl
    · exact absurd ((Cache.holds_iff hidx htag hs).mpr ((st.findBlock_isSome_iff tag).mp hb)) hh
  obtain ⟨p, cur, hp, hcur', hins, halt⟩ := st.insertBlock_detail tag c.associativity h.1 hlen hcur
  exact ⟨index, tag, st, p, cur, hidx, htag, hs, hlen, hp, hcur', hnone,
    by simp [Cache.read, hidx, htag, hs, hf, hins], halt⟩

/-- Holding a line only depends on the geometry and on the tags and valid
bits. -/
theorem Cache.holds_iff_skeleton {c : Cache} {a index tag : Nat}
    (hidx : c.readIndex a = some index) (htag : c.tagOf a = some tag) :
    c.Holds a ↔ ∃ sk, c.skeleton[index]? = some sk ∧ (tag, true) ∈ sk.1 := by
  cases hs : c.sets[index]? with
  | none =>
    constructor
    · intro hh
      simp [Cache.Holds, Cache.targetSet, hidx, hs] at hh
    · rintro ⟨sk, hsk, _⟩
      simp [Cache.skeleton, hs] at hsk
  | some st =>
    rw [Cache.holds_iff hidx htag hs]
    simp only [Cache.skeleton, List.getElem?_map, hs, Option.map_some', Option.some.injEq]
    constructor
    · rintro ⟨w, hw, hv, ht⟩
      exact ⟨_, rfl, List.mem_map.mpr ⟨w, hw, by rw [hv, ht]⟩⟩
    · rintro ⟨sk, hsk, hmem⟩
      subst hsk
      obtain ⟨w, hw, he⟩ := List.mem_map.mp hmem
      simp only [Prod.mk.injEq] at he
      exact ⟨w, hw, he.2, he.1⟩

theorem Cache.withDirty_holds {c : Cache} {a : Nat} (index i : Nat) (hh : c.Holds a)
    (h : c.WellFormed) : (c.withDirty index i).Holds a := by
  obtain ⟨idx, tag, _, hidx, _, htag, _, _, _⟩ := h.decode a
  have hg := c.withDirty_sameGeometry index i
  have hidx' : (c.withDirty index i).readIndex a = some idx := by
    simpa only [Cache.readIndex, hg.2.2.2.1, hg.2.2.2.2.1] using hidx
  have htag' : (c.withDirty index i).tagOf a = some tag := by
    simpa only [Cache.tagOf, hg.2.2.2.1, hg.2.2.2.2.1] using htag
  rw [Cache.holds_iff_skeleton hidx' htag', Cache.withDirty_skeleton]
  exact (Cache.holds_iff_skeleton hidx htag).mp hh

/-! ## The promotion path -/

theorem processAccess_read_promote_detail {L1 L2 : Cache} {a : Nat} (h1 : L1.WellFormed)
    (h2 : L2.WellFormed) (hm1 : ¬ L1.Holds a) (hh2 : L2.Holds a) :
    ∃ L1a index st w L1b L2b r L1c,
      L1.read a = some (2, L1a) ∧ L1a.WellFormed ∧ L1a.readIndex a = some index ∧
      L1a.sets[index]? = some st ∧ st.ways[st.evictionCounter]? = some w ∧
      L1a.evictAndMove a L2 = some (st.evictionCounter, L1b, L2b) ∧
      L1b = { L1a with
        sets := L1a.sets.set index ⟨st.ways.set st.evictionCounter
          { w with valid := false, dirty := false },
          (st.evictionCounter + 1) % L1a.associativity⟩ } ∧
      (w.dirty = true → ∃ r2, L2.write a = some (r2, L2b)) ∧
      (w.dirty = false → L2b = L2) ∧
      L1b.WellFormed ∧ L1b.read a = some (r, L1c) ∧
      (L1b.Holds a → r = 1 ∧ L1c = L1b) ∧ (¬ L1b.Holds a → r = 2) ∧
      processAccess L1 L2 'R' a = some ((2, 0, 5), L1c, L2b) := by
  obtain ⟨r1, L1a, hr1, hwf1a, _, _, hr1m⟩ := Cache.read_total h1 a
  have e1 := hr1m hm1
  subst e1
  have hr2 := Cache.read_of_holds h2 hh2
  obtain ⟨index, st, w, L2b, hidx, hs, hw, hd, hnd, _, hev⟩ := Cache.evictAndMove_spec hwf1a h2 a
  have hwf1b := (Cache.evictAndMove_result hwf1a h2 hev).1
  obtain ⟨r, L1c, hr3, _, _, hhit, hmiss⟩ := Cache.read_total hwf1b a
  exact ⟨L1a, index, st, w, _, L2b, r, L1c, hr1, hwf1a, hidx, hs, hw, hev, rfl, hd, hnd, hwf1b,
    hr3, hhit, hmiss, by simp [processAccess, hr1, hr2, hev, hr3]⟩

/-- C20: for well-formed levels and an address that L1 does not hold and L2
holds, a Read event leaves every tag, valid bit and cursor of L2 as before and
L2 still holds the line; L2 is unchanged when the L1 way at the cursor, the
victim of `evictAndMove`, was clean, and otherwise differs only in the dirty
bit of the first way holding the requested line, which is set; with L1
associativity 1 the victim is clean and L2 is unchanged. -/
theorem read_promotion_L2_frame (L1 L2 : Cache) (a : Nat) (h1 : L1.WellFormed)
    (h2 : L2.WellFormed) (hm : ¬ L1.Holds a) (hh : L2.Holds a) :
    ∃ L1a index st w L1' L2', L1.read a = some (2, L1a) ∧ L1a.readIndex a = some index ∧
      L1a.sets[index]? = some st ∧ st.ways[st.evictionCounter]? = some w ∧
      processAccess L1 L2 'R' a = some ((2, 0, 5), L1', L2') ∧
      L2'.skeleton = L2.skeleton ∧ L2'.Holds a ∧
      (w.dirty = false → L2' = L2) ∧
      (w.dirty = true → ∃ index2 tag2 st2 i, L2.readIndex a = some index2 ∧
        L2.tagOf a = some tag2 ∧ L2.sets[index2]? = some st2 ∧ st2.FirstMatch tag2 i ∧
        L2' = L2.withDirty index2 i) ∧
      (L1.associativity = 1 → w.dirty = false ∧ L2' = L2) := by
  obtain ⟨L1a, index, st, w, L1b, L2b, r, L1c, hr1, hwf1a, hidx, hs, hw, hev, hL1b, hd, hnd,
    hwf1b, hr3, _, _, hp⟩ := processAccess_read_promote_detail h1 h2 hm hh
  obtain ⟨index2, tag2, st2, i, hidx2, htag2, hs2, hfm, hwr⟩ := Cache.write_of_holds h2 hh
  have hdirty : w.dirty = true → L2b = L2.withDirty index2 i := by
    intro hdw
    obtain ⟨r2, hw2⟩ := hd hdw
    rw [hwr] at hw2
    cases hw2
    rfl
  refine ⟨L1a, index, st, w, L1c, L2b, hr1, hidx, hs, hw, hp, ?_, ?_, hnd,
    fun hdw => ⟨index2, tag2, st2, i, hidx2, htag2, hs2, hfm, hdirty hdw⟩, ?_⟩
  · cases hdw : w.dirty with
    | false => rw [hnd hdw]
    | true => rw [hdirty hdw]; exact Cache.withDirty_skeleton L2 index2 i
  · cases hdw : w.dirty with
    | false => rw [hnd hdw]; exact hh
    | true => rw [hdirty hdw]; exact Cache.withDirty_holds index2 i hh h2
  · intro hA
    obtain ⟨index0, tag, st0, p, cur, hidx0, htag0, hs0, hlen0, hp0, hcur0, _, hrd, _⟩ :=
      Cache.read_miss_detail h1 hm
    rw [hr1] at hrd
    cases hrd
    have hi : index = index0 := by
      have : L1.readIndex a = some index := hidx
      rw [hidx0] at this
      exact (Option.some.inj this).symm
    subst hi
    have hk : index < L1.sets.length := (List.getElem?_eq_some.mp hs0).1
    have hst : st = ⟨st0.ways.set p ⟨tag, true, false⟩, cur⟩ := by
      have : (L1.sets.set index ⟨st0.ways.set p ⟨tag, true, false⟩, cur⟩)[index]? = some st := hs
      simpa [List.getElem?_set, hk] using this.symm
    subst hst
    have hp1 : p = 0 := by omega
    have hc1 : cur = 0 := by omega
    subst hp1 hc1
    have hl : 0 < st0.ways.length := by omega
    have hwx : w = ⟨tag, true, false⟩ := by
      have : (st0.ways.set 0 ⟨tag, true, false⟩)[0]? = some w := hw
      simpa [List.getElem?_set, hl] using this.symm
    have hwd : w.dirty = false := by rw [hwx]
    exact ⟨hwd, hnd hwd⟩


theorem read_promotion_L2_frame_witness :
    ∃ L1a index st w L1' L2', sampleL1.read 20 = some (2, L1a) ∧
      L1a.readIndex 20 = some index ∧
      L1a.sets[index]? = some st ∧ st.ways[st.evictionCounter]? = some w ∧
      processAccess sampleL1 sampleL2 'R' 20 = some ((2, 0, 5), L1', L2') ∧
      L2'.skeleton = sampleL2.skeleton ∧ L2'.Holds 20 ∧
      (w.dirty = false → L2' = sampleL2) ∧
      (w.dirty = true → ∃ index2 tag2 st2 i, sampleL2.readIndex 20 = some index2 ∧
        sampleL2.tagOf 20 = some tag2 ∧ sampleL2.sets[index2]? = some st2 ∧
        st2.FirstMatch tag2 i ∧ L2' = sampleL2.withDirty index2 i) ∧
      (sampleL1.associativity = 1 → w.dirty = false ∧ L2' = sampleL2) :=
  read_promotion_L2_frame sampleL1 sampleL2 20 (by decide) (by decide) (by decide) (by decide)

/-- C15 as stated fails: in `promoteL1`, set 0 has tag 9 in way 0, way 1
invalid and cursor 0.  Reading address 40 (tag 5, set 0; held by `sampleL2`)
first allocates way 1, then `evictAndMove` returns way 0 and invalidates it,
and the re-issued read hits in way 1: after the event way 0, the way
`evictAndMove` returned, is invalid and still carries tag 9. -/
theorem reissued_read_not_into_freed_way :
    promoteL1.WellFormed ∧ sampleL2.WellFormed ∧ ¬ promoteL1.Holds 40 ∧ sampleL2.Holds 40 ∧
    promoteL1.tagOf 40 = some 5 ∧ promoteL1.readIndex 40 = some 0 ∧
    ∃ L1a L1b L2b L1c, promoteL1.read 40 = some (2, L1a) ∧
      L1a.evictAndMove 40 sampleL2 = some (0, L1b, L2b) ∧ L1b.read 40 = some (1, L1c) ∧
      processAccess promoteL1 sampleL2 'R' 40 = some ((2, 0, 5), L1c, L2b) ∧
      L1c.way 0 0 = some ⟨9, false, false⟩ ∧
      ¬ ∃ w, L1c.way 0 0 = some w ∧ w.valid = true ∧ w.tag = 5 :=
  ⟨by decide, by decide, by decide, by decide, rfl, rfl, _, _, _, _, rfl, rfl, rfl, rfl, rfl,
    by decide⟩

/-- C15, amended: for well-formed levels and an address that L1 does not hold
and L2 holds, let `e` be the way `evictAndMove` returns and `w` its content
before the eviction.  When `w` is the requested line (as it always is with
associativity 1) the re-issued read misses and allocates the line into way
`e`; otherwise the re-issued read hits, allocates nothing, way `e` stays
invalid and the requested line is valid in another way of the set. -/
theorem reissued_read_effect (L1 L2 : Cache) (a : Nat) (h1 : L1.WellFormed)
    (h2 : L2.WellFormed) (hm : ¬ L1.Holds a) (hh : L2.Holds a) :
    ∃ index tag L1a e w L1b L2b r L1c,
      L1.readIndex a = some index ∧ L1.tagOf a = some tag ∧
      L1.read a = some (2, L1a) ∧ L1a.way index e = some w ∧
      L1a.evictAndMove a L2 = some (e, L1b, L2b) ∧ L1b.read a = some (r, L1c) ∧
      processAccess L1 L2 'R' a = some ((2, 0, 5), L1c, L2b) ∧
      ((w.valid = true ∧ w.tag = tag) →
        r = 2 ∧ L1c.way index e = some ⟨tag, true, false⟩) ∧
      (¬ (w.valid = true ∧ w.tag = tag) →
        r = 1 ∧ L1c = L1b ∧
        L1c.way index e = some { w with valid := false, dirty := false } ∧
        ∃ p, p ≠ e ∧ L1c.way index p = some ⟨tag, true, false⟩) ∧
      (L1.associativity = 1 → w.valid = true ∧ w.tag = tag) := by
  obtain ⟨L1a, index, st, w, L1b, L2b, r, L1c, hr1, hwf1a, hidx, hs, hw, hev, hL1b, _, _,
    hwf1b, hr3, hhit, hmiss, hp⟩ := processAccess_read_promote_detail h1 h2 hm hh
  obtain ⟨index0, tag, st0, p, cur, hidx0, htag0, hs0, hlen0, hp0, hcur0, hnone, hrd, halt⟩ :=
    Cache.read_miss_detail h1 hm
  rw [hr1] at hrd
  cases hrd
  have hi : index = index0 := by
    have : L1.readIndex a = some index := hidx
    rw [hidx0] at this
    exact (Option.some.inj this).symm
  subst hi
  have hk : index < L1.sets.length := (List.getElem?_eq_some.mp hs0).1
  have hst : st = ⟨st0.ways.set p ⟨tag, true, false⟩, cur⟩ := by
    have : (L1.sets.set index ⟨st0.ways.set p ⟨tag, true, false⟩, cur⟩)[index]? = some st := hs
    simpa [List.getElem?_set, hk] using this.symm
  subst hst
  have hpl : p < st0.ways.length := by omega
  have hcl : cur < st0.ways.length := by omega
  have hbefore : ∀ j < p, ∀ w', st0.ways[j]? = some w' → w'.valid = true := by
    rcases halt with ⟨_, hb, _⟩ | ⟨hall, _, _⟩
    · exact hb
    · intro j _ w' hw'
      exact hall w' (List.mem_iff_getElem?.mpr ⟨j, hw'⟩)
  have hw0 : (st0.ways.set p ⟨tag, true, false⟩)[cur]? = some w := hw
  have hs1 : (L1.sets.set index ⟨st0.ways.set p ⟨tag, true, false⟩, cur⟩)[index]?
      = some ⟨st0.ways.set p ⟨tag, true, false⟩, cur⟩ := hs
  have hlen1 : cur < (st0.ways.set p ⟨tag, true, false⟩).length := by simpa using hcl
  have hwayb := Cache.way_replace (c := { L1 with
      sets := L1.sets.set index ⟨st0.ways.set p ⟨tag, true, false⟩, cur⟩ })
    { w with valid := false, dirty := false } ((cur + 1) % L1.associativity) hs1 hlen1
  have hwaya : ∀ j, Cache.way { L1 with
      sets := L1.sets.set index ⟨st0.ways.set p ⟨tag, true, false⟩, cur⟩ } index j
      = (st0.ways.set p ⟨tag, true, false⟩)[j]? := by
    intro j
    simp [Cache.way, List.getElem?_set, hk]
  subst hL1b
  refine ⟨index, tag, _, cur, w, _, L2b, r, L1c, hidx0, htag0, hr1, ?_, hev, hr3, hp, ?_, ?_, ?_⟩
  · rw [hwaya]; exact hw0
  · intro hvt
    have hcp : cur = p := by
      by_contra hne
      rw [List.getElem?_set_ne (fun e => hne e.symm)] at hw0
      exact hnone w (List.mem_iff_getElem?.mpr ⟨cur, hw0⟩) hvt
    subst hcp
    have hs2 : (List.set (L1.sets.set index ⟨st0.ways.set cur ⟨tag, true, false⟩, cur⟩) index
        ⟨(st0.ways.set cur ⟨tag, true, false⟩).set cur { w with valid := false, dirty := false },
          (cur + 1) % L1.associativity⟩)[index]?
        = some ⟨(st0.ways.set cur ⟨tag, true, false⟩).set cur
            { w with valid := false, dirty := false }, (cur + 1) % L1.associativity⟩ := by
      simp [List.getElem?_set, hk]
    have hnh : ¬ Cache.Holds { L1 with
        sets := List.set (L1.sets.set index ⟨st0.ways.set cur ⟨tag, true, false⟩, cur⟩) index
          ⟨(st0.ways.set cur ⟨tag, true, false⟩).set cur
            { w with valid := false, dirty := false }, (cur + 1) % L1.associativity⟩ } a := by
      intro hc
      obtain ⟨w', hw', hv', ht'⟩ := (Cache.holds_iff (c := { L1 with
        sets := List.set (L1.sets.set index ⟨st0.ways.set cur ⟨tag, true, false⟩, cur⟩) index
          ⟨(st0.ways.set cur ⟨tag, true, false⟩).set cur
            { w with valid := false, dirty := false }, (cur + 1) % L1.associativity⟩ })
        hidx0 htag0 hs2).mp hc
      rw [List.set_set] at hw'
      rcases List.mem_or_eq_of_mem_set hw' with hin | heq
      · exact hnone w' hin ⟨hv', ht'⟩
      · rw [heq] at hv'; cases hv'
    obtain ⟨index', tag', st', p2, cur2, hidx', htag', hs', _, _, _, _, hrd', halt'⟩ :=
      Cache.read_miss_detail hwf1b hnh
    have e1 : index' = index := by
      have : L1.readIndex a = some index' := hidx'
      rw [hidx0] at this
      exact (Option.some.inj this).symm
    subst e1
    have e2 : tag' = tag := by
      have : L1.tagOf a = some tag' := htag'
      rw [htag0] at this
      exact (Option.some.inj this).symm
    subst e2
    have e3 : st' = ⟨(st0.ways.set cur ⟨tag', true, false⟩).set cur
        { w with valid := false, dirty := false }, (cur + 1) % L1.associativity⟩ := by
      rw [hs2] at hs'
      exact (Option.some.inj hs').symm
    subst e3
    rw [hr3] at hrd'
    cases hrd'
    have hinv : ((st0.ways.set cur ⟨tag', true, false⟩).set cur
        { w with valid := false, dirty := false })[cur]?
        = some { w with valid := false, dirty := false } := by
      simp [List.getElem?_set, hcl]
    have hp2 : p2 = cur := by
      rcases halt' with ⟨⟨w0, hw0', hv0⟩, hb2, _⟩ | ⟨hall, _, _⟩
      · rcases Nat.lt_trichotomy p2 cur with hlt | heq | hgt
        · have h3 : ((st0.ways.set cur ⟨tag', true, false⟩).set cur
              { w with valid := false, dirty := false })[p2]? = some w0 := hw0'
          rw [List.set_set, List.getElem?_set_ne (by omega)] at h3
          have := hbefore p2 hlt w0 h3
          rw [hv0] at this
          cases this
        · exact heq
        · have := hb2 cur hgt _ hinv
          cases this
      · have := hall _ (List.mem_iff_getElem?.mpr ⟨cur, hinv⟩)
        cases this
    subst hp2
    refine ⟨rfl, ?_⟩
    have hl2 : p2 < ((st0.ways.set p2 ⟨tag', true, false⟩).set p2
        { w with valid := false, dirty := false }).length := by simpa using hcl
    rw [Cache.way_replace (c := { L1 with
        sets := List.set (L1.sets.set index' ⟨st0.ways.set p2 ⟨tag', true, false⟩, p2⟩) index'
          ⟨(st0.ways.set p2 ⟨tag', true, false⟩).set p2
            { w with valid := false, dirty := false }, (p2 + 1) % L1.associativity⟩ })
      ⟨tag', true, false⟩ cur2 hs2 hl2]
    simp
  · intro hvt
    have hcp : cur ≠ p := by
      intro he
      subst he
      rw [List.getElem?_set_self hpl] at hw0
      cases hw0
      exact hvt ⟨rfl, rfl⟩
    have hwp : Cache.way { L1 with
        sets := List.set (L1.sets.set index ⟨st0.ways.set p ⟨tag, true, false⟩, cur⟩) index
          ⟨(st0.ways.set p ⟨tag, true, false⟩).set cur { w with valid := false, dirty := false },
            (cur + 1) % L1.associativity⟩ } index p = some ⟨tag, true, false⟩ := by
      rw [hwayb, if_neg (by intro h; exact hcp h.2.symm), hwaya]
      simp [List.getElem?_set, hpl]
    have hs2 : (List.set (L1.sets.set index ⟨st0.ways.set p ⟨tag, true, false⟩, cur⟩) index
        ⟨(st0.ways.set p ⟨tag, true, false⟩).set cur { w with valid := false, dirty := false },
          (cur + 1) % L1.associativity⟩)[index]?
        = some ⟨(st0.ways.set p ⟨tag, true, false⟩).set cur
            { w with valid := false, dirty := false }, (cur + 1) % L1.associativity⟩ := by
      simp [List.getElem?_set, hk]
    have hholds : Cache.Holds { L1 with
        sets := List.set (L1.sets.set index ⟨st0.ways.set p ⟨tag, true, false⟩, cur⟩) index
          ⟨(st0.ways.set p ⟨tag, true, false⟩).set cur
            { w with valid := false, dirty := false }, (cur + 1) % L1.associativity⟩ } a := by
      refine (Cache.holds_iff (c := { L1 with
        sets := List.set (L1.sets.set index ⟨st0.ways.set p ⟨tag, true, false⟩, cur⟩) index
          ⟨(st0.ways.set p ⟨tag, true, false⟩).set cur
            { w with valid := false, dirty := false }, (cur + 1) % L1.associativity⟩ })
        hidx0 htag0 hs2).mpr ⟨⟨tag, true, false⟩, ?_, rfl, rfl⟩
      refine List.mem_iff_getElem?.mpr ⟨p, ?_⟩
      rw [List.getElem?_set_ne hcp]
      simp [List.getElem?_set, hpl]
    obtain ⟨hr, hc⟩ := hhit hholds
    subst hr hc
    refine ⟨rfl, rfl, ?_, p, fun e => hcp e.symm, hwp⟩
    rw [hwayb]; simp
  · intro hA
    have hp1 : p = 0 := by omega
    have hc1 : cur = 0 := by omega
    subst hp1 hc1
    rw [List.getElem?_set_self hpl] at hw0
    cases hw0
    exact ⟨rfl, rfl⟩

theorem reissued_read_effect_witness :
    ∃ index tag L1a e w L1b L2b r L1c,
      sampleL1.readIndex 20 = some index ∧ sampleL1.tagOf 20 = some tag ∧
      sampleL1.read 20 = some (2, L1a) ∧ L1a.way index e = some w ∧
      L1a.evictAndMove 20 sampleL2 = some (e, L1b, L2b) ∧ L1b.read 20 = some (r, L1c) ∧
      processAccess sampleL1 sampleL2 'R' 20 = some ((2, 0, 5), L1c, L2b) ∧
      ((w.valid = true ∧ w.tag = tag) →
        r = 2 ∧ L1c.way index e = some ⟨tag, true, false⟩) ∧
      (¬ (w.valid = true ∧ w.tag = tag) →
        r = 1 ∧ L1c = L1b ∧
        L1c.way index e = some { w with valid := false, dirty := false } ∧
        ∃ p, p ≠ e ∧ L1c.way index p = some ⟨tag, true, false⟩) ∧
      (sampleL1.associativity = 1 → w.valid = true ∧ w.tag = tag) :=
  reissued_read_effect sampleL1 sampleL2 20 (by decide) (by decide) (by decide) (by decide)

/-! ## Invariants of the reachable states -/

theorem UniqueWays.of_pointwise {ws ws' : List CacheBlock}
    (h : ∀ (j : Nat) (w' : CacheBlock), ws'[j]? = some w' → w'.valid = true →
      ∃ w, ws[j]? = some w ∧ w.valid = true ∧ w.tag = w'.tag)
    (hu : UniqueWays ws) : UniqueWays ws' := by
  intro i j wi wj hi hj hvi hvj ht
  obtain ⟨w1, h1, hv1, ht1⟩ := h i wi hi hvi
  obtain ⟨w2, h2, hv2, ht2⟩ := h j wj hj hvj
  exact hu i j w1 w2 h1 h2 hv1 hv2 (by rw [ht1, ht2, ht])

theorem uniqueWays_closed : WaysClosed UniqueWays where
  fill := by
    intro ws i tag hu hnone a b wa wb ha hb hva hvb ht
    rw [List.getElem?_set] at ha hb
    by_cases hia : i = a
    · by_cases hib : i = b
      · omega
      · rw [if_pos hia] at ha
        rw [if_neg hib] at hb
        split at ha
        · cases ha
          exact absurd ⟨hvb, ht.symm⟩ (hnone wb (List.mem_iff_getElem?.mpr ⟨b, hb⟩))
        · cases ha
    · rw [if_neg hia] at ha
      by_cases hib : i = b
      · rw [if_pos hib] at hb
        split at hb
        · cases hb
          exact absurd ⟨hva, ht⟩ (hnone wa (List.mem_iff_getElem?.mpr ⟨a, ha⟩))
        · cases hb
      · rw [if_neg hib] at hb
        exact hu a b wa wb ha hb hva hvb ht
  mark := by
    intro ws i w hu hw _
    refine UniqueWays.of_pointwise ?_ hu
    intro j w' hj hv
    rw [List.getElem?_set] at hj
    by_cases hij : i = j
    · subst hij
      rw [if_pos rfl] at hj
      split at hj
      · cases hj
        exact ⟨w, hw, hv, rfl⟩
      · cases hj
    · rw [if_neg hij] at hj
      exact ⟨w', hj, hv, rfl⟩
  drop := by
    intro ws i w hu hw
    refine UniqueWays.of_pointwise ?_ hu
    intro j w' hj hv
    rw [List.getElem?_set] at hj
    by_cases hij : i = j
    · subst hij
      rw [if_pos rfl] at hj
      split at hj
      · cases hj
        cases hv
      · cases hj
    · rw [if_neg hij] at hj
      exact ⟨w', hj, hv, rfl⟩

theorem dirtyValidWays_closed : WaysClosed DirtyValidWays where
  fill := by
    intro ws i tag hd _ w hw hdw
    rcases List.mem_or_eq_of_mem_set hw with h | h
    · exact hd w h hdw
    · subst h; rfl
  mark := by
    intro ws i w hd _ hv w' hw' hdw
    rcases List.mem_or_eq_of_mem_set hw' with h | h
    · exact hd w' h hdw
    · subst h; exact hv
  drop := by
    intro ws i w hd _ w' hw' hdw
    rcases List.mem_or_eq_of_mem_set hw' with h | h
    · exact hd w' h hdw
    · subst h; cases hdw


theorem Cache.AllWays.ofReplace {P : List CacheBlock → Prop} {c : Cache} (h : c.AllWays P)
    (index : Nat) (s' : Set) (hs' : P s'.ways) :
    Cache.AllWays P { c with sets := c.sets.set index s' } := by
  intro s hs
  rcases List.mem_or_eq_of_mem_set hs with hs | hs
  · exact h s hs
  · subst hs; exact hs'

theorem Cache.read_keeps {P : List CacheBlock → Prop} (hP : WaysClosed P) {c : Cache}
    (h : c.WellFormed) (hp : c.AllWays P) {a r : Nat} {c' : Cache}
    (hr : c.read a = some (r, c')) : c'.AllWays P := by
  by_cases hh : c.Holds a
  · have := Cache.read_of_holds h hh
    rw [hr] at this
    cases this
    exact hp
  · obtain ⟨index, tag, st, p, cur, _, _, hs, _, _, _, hnone, hrd, _⟩ :=
      Cache.read_miss_detail h hh
    rw [hr] at hrd
    cases hrd
    exact hp.ofReplace index _
      (hP.fill st.ways p tag (hp st (List.mem_iff_getElem?.mpr ⟨_, hs⟩)) hnone)

theorem Cache.write_keeps {P : List CacheBlock → Prop} (hP : WaysClosed P) {c : Cache}
    (h : c.WellFormed) (hp : c.AllWays P) {a r : Nat} {c' : Cache}
    (hr : c.write a = some (r, c')) : c'.AllWays P := by
  by_cases hh : c.Holds a
  · obtain ⟨index, tag, st, i, _, _, hs, hfm, hw⟩ := Cache.write_of_holds h hh
    rw [hr] at hw
    cases hw
    obtain ⟨w, hwi, hv, _⟩ := hfm.1
    rw [Cache.withDirty_eq hs hwi]
    exact hp.ofReplace index _
      (hP.mark st.ways i w (hp st (List.mem_iff_getElem?.mpr ⟨_, hs⟩)) hwi hv)
  · have hw := Cache.write_of_not_holds h hh
    rw [hr] at hw
    cases hw
    exact hp

theorem Cache.evictAndMove_keeps {P : List CacheBlock → Prop} (hP : WaysClosed P)
    {c lower : Cache} (h : c.WellFormed) (hl : lower.WellFormed) (hp : c.AllWays P)
    (hpl : lower.AllWays P) {a e : Nat} {c' lower' : Cache}
    (hr : c.evictAndMove a lower = some (e, c', lower')) :
    c'.AllWays P ∧ lower'.AllWays P := by
  obtain ⟨index, st, w, l1, _, hs, hw, hd, hnd, _, he⟩ := Cache.evictAndMove_spec h hl a
  rw [hr] at he
  cases he
  refine ⟨hp.ofReplace index _
    (hP.drop st.ways st.evictionCounter w (hp st (List.mem_iff_getElem?.mpr ⟨_, hs⟩)) hw), ?_⟩
  cases hdw : w.dirty with
  | false => rw [hnd hdw]; exact hpl
  | true =>
    obtain ⟨r, hwr⟩ := hd hdw
    exact Cache.write_keeps hP hl hpl hwr

/-- One trace line always returns and keeps both levels well formed, together
with any property of the ways that the three updates keep. -/
theorem processAccess_keeps {P : List CacheBlock → Prop} (hP : WaysClosed P) {L1 L2 : Cache}
    (h1 : L1.WellFormed) (h2 : L2.WellFormed) (p1 : L1.AllWays P) (p2 : L2.AllWays P)
    (t : Char) (a : Nat) :
    ∃ r L1' L2', processAccess L1 L2 t a = some (r, L1', L2') ∧ L1'.WellFormed ∧
      L2'.WellFormed ∧ L1'.AllWays P ∧ L2'.AllWays P := by
  by_cases hR : t = 'R'
  · subst hR
    by_cases hh1 : L1.Holds a
    · exact ⟨_, _, _, processAccess_read_hit L2 h1 hh1, h1, h2, p1, p2⟩
    · by_cases hh2 : L2.Holds a
      · obtain ⟨L1a, index, st, w, L1b, L2b, r, L1c, hr1, hwf1a, _, _, _, hev, _, _, _, hwf1b,
          hr3, _, _, hp⟩ := processAccess_read_promote_detail h1 h2 hh1 hh2
        have p1a := Cache.read_keeps hP h1 p1 hr1
        obtain ⟨p1b, p2b⟩ := Cache.evictAndMove_keeps hP hwf1a h2 p1a p2 hev
        exact ⟨_, L1c, L2b, hp, (Cache.read_result hwf1b hr3).1,
          (Cache.evictAndMove_result hwf1a h2 hev).2.2.1, Cache.read_keeps hP hwf1b p1b hr3, p2b⟩
      · obtain ⟨L1a, L2a, hr1, hr2, hp⟩ := processAccess_read_miss_miss h1 h2 hh1 hh2
        exact ⟨_, L1a, L2a, hp, (Cache.read_result h1 hr1).1, (Cache.read_result h2 hr2).1,
          Cache.read_keeps hP h1 p1 hr1, Cache.read_keeps hP h2 p2 hr2⟩
  · by_cases hW : t = 'W'
    · subst hW
      by_cases hh1 : L1.Holds a
      · obtain ⟨index, _, _, i, _, _, _, _, hw⟩ := Cache.write_of_holds h1 hh1
        exact ⟨_, _, L2, processAccess_write_hit L2 hw, (Cache.write_result h1 hw).1, h2,
          Cache.write_keeps hP h1 p1 hw, p2⟩
      · have hw1 := Cache.write_of_not_holds h1 hh1
        obtain ⟨r, L2a, hw2, hwf2a⟩ := Cache.write_total h2 a
        exact ⟨_, L1, L2a, processAccess_write_miss hw1 hw2, h1, hwf2a, p1,
          Cache.write_keeps hP h2 p2 hw2⟩
    · exact ⟨(0, 0, 5), L1, L2, by simp [processAccess, hR, hW], h1, h2, p1, p2⟩

theorem Call.run_keeps {P : List CacheBlock → Prop} (hP : WaysClosed P) (call : Call)
    {L1 L2 : Cache} (h1 : L1.WellFormed) (h2 : L2.WellFormed) (p1 : L1.AllWays P)
    (p2 : L2.AllWays P) :
    ∃ L1' L2', call.run (L1, L2) = some (L1', L2') ∧ L1'.WellFormed ∧ L2'.WellFormed ∧
      L1'.AllWays P ∧ L2'.AllWays P := by
  cases call with
  | read1 a =>
    obtain ⟨r, c', hr, hwf, _⟩ := Cache.read_total h1 a
    exact ⟨c', L2, by simp [Call.run, hr], hwf, h2, Cache.read_keeps hP h1 p1 hr, p2⟩
  | read2 a =>
    obtain ⟨r, c', hr, hwf, _⟩ := Cache.read_total h2 a
    exact ⟨L1, c', by simp [Call.run, hr], h1, hwf, p1, Cache.read_keeps hP h2 p2 hr⟩
  | write1 a =>
    obtain ⟨r, c', hr, hwf⟩ := Cache.write_total h1 a
    exact ⟨c', L2, by simp [Call.run, hr], hwf, h2, Cache.write_keeps hP h1 p1 hr, p2⟩
  | write2 a =>
    obtain ⟨r, c', hr, hwf⟩ := Cache.write_total h2 a
    exact ⟨L1, c', by simp [Call.run, hr], h1, hwf, p1, Cache.write_keeps hP h2 p2 hr⟩
  | evictAndMove1 a =>
    obtain ⟨e, c', l', hr, hwf, hwfl⟩ := Cache.evictAndMove_total h1 h2 a
    obtain ⟨q1, q2⟩ := Cache.evictAndMove_keeps hP h1 h2 p1 p2 hr
    exact ⟨c', l', by simp [Call.run, hr], hwf, hwfl, q1, q2⟩
  | evictAndMove2 a =>
    obtain ⟨e, c', l', hr, hwf, hwfl⟩ := Cache.evictAndMove_total h2 h1 a
    obtain ⟨q2, q1⟩ := Cache.evictAndMove_keeps hP h2 h1 p2 p1 hr
    exact ⟨l', c', by simp [Call.run, hr], hwfl, hwf, q1, q2⟩
  | event t a =>
    obtain ⟨r, L1', L2', hp, hw1, hw2, q1, q2⟩ := processAccess_keeps hP h1 h2 p1 p2 t a
    exact ⟨L1', L2', by simp [Call.run, hp], hw1, hw2, q1, q2⟩

/-- Every sequence of calls runs to its end from well-formed levels, and keeps
them well formed together with any property of the ways that the three updates
keep. -/
theorem runCalls_keeps {P : List CacheBlock → Prop} (hP : WaysClosed P) (calls : List Call) :
    ∀ {L1 L2 : Cache}, L1.WellFormed → L2.WellFormed → L1.AllWays P → L2.AllWays P →
      ∃ L1' L2', runCalls calls (L1, L2) = some (L1', L2') ∧ L1'.WellFormed ∧
        L2'.WellFormed ∧ L1'.AllWays P ∧ L2'.AllWays P := by
  induction calls with
  | nil =>
    intro L1 L2 h1 h2 p1 p2
    exact ⟨L1, L2, rfl, h1, h2, p1, p2⟩
  | cons call rest ih =>
    intro L1 L2 h1 h2 p1 p2
    obtain ⟨M1, M2, hrun, hw1, hw2, q1, q2⟩ := Call.run_keeps hP call h1 h2 p1 p2
    obtain ⟨N1, N2, hrest, hrestinv⟩ := ih hw1 hw2 q1 q2
    exact ⟨N1, N2, by simp [runCalls, hrun, hrest], hrestinv⟩

theorem Cache.AllInvalid.uniqueTags {c : Cache} (h : c.AllInvalid) : c.UniqueTags := by
  intro s hs i j wi wj hi _ hvi _ _
  have := h s hs wi (List.mem_iff_getElem?.mpr ⟨i, hi⟩)
  rw [this] at hvi
  cases hvi

theorem Cache.AllClean.dirtyValid {c : Cache} (h : c.AllClean) : c.DirtyValid := by
  intro s hs w hw hd
  have := h s hs w hw
  rw [this] at hd
  cases hd


theorem Cache.SameGeometry.trans {c1 c2 c3 : Cache} (h12 : c1.SameGeometry c2)
    (h23 : c2.SameGeometry c3) : c1.SameGeometry c3 := by
  obtain ⟨a1, a2, a3, a4, a5, a6, a7⟩ := h12
  obtain ⟨b1, b2, b3, b4, b5, b6, b7⟩ := h23
  exact ⟨b1.trans a1, b2.trans a2, b3.trans a3, b4.trans a4, b5.trans a5, b6.trans a6,
    b7.trans a7⟩

/-- The shape of the set while it fills: with `k <= associativity` tags
inserted, way `j < k` is valid and holds the `j`-th tag, the other ways are
invalid and the cursor is still 0. -/
theorem Fills.shape {idx : Nat} {c0 c : Cache} {ts : List Nat} (hf : Fills idx c0 ts c)
    (h : c0.WellFormed) {st0 : Set} (hs0 : c0.sets[idx]? = some st0)
    (hinv : ∀ w ∈ st0.ways, w.valid = false) (hcur : st0.evictionCounter = 0)
    (hlen : ts.length ≤ c0.associativity) :
    c.WellFormed ∧ c0.SameGeometry c ∧ ts.Nodup ∧
      ∃ st, c.sets[idx]? = some st ∧ st.evictionCounter = 0 ∧
        st.ways.length = c0.associativity ∧
        ∀ (j : Nat) (w : CacheBlock), st.ways[j]? = some w →
          (j < ts.length → w.valid = true ∧ ts[j]? = some w.tag) ∧
          (ts.length ≤ j → w.valid = false) := by
  induction hf with
  | start =>
    refine ⟨h, c0.sameGeometry_refl, List.nodup_nil, st0, hs0, hcur,
      (h.2.1 st0 (List.mem_iff_getElem?.mpr ⟨_, hs0⟩)).1, ?_⟩
    intro j w hw
    exact ⟨fun hj => absurd hj (by simp), fun _ => hinv w (List.mem_iff_getElem?.mpr ⟨j, hw⟩)⟩
  | @insert ts c c' a tag r _ hidx htag hnew hr ih =>
    have hlen' : ts.length < c0.associativity := by
      simp only [List.length_append, List.length_singleton] at hlen
      omega
    obtain ⟨hwf, hg, hnd, st, hs, hc0, hl, hshape⟩ := ih (by omega)
    have hnh : ¬ c.Holds a := by
      intro hh
      obtain ⟨w, hw, hv, ht⟩ := (Cache.holds_iff hidx htag hs).mp hh
      obtain ⟨j, hj⟩ := List.mem_iff_getElem?.mp hw
      have hjk : j < ts.length := by
        by_contra hge
        have := (hshape j w hj).2 (by omega)
        rw [this] at hv
        cases hv
      have := ((hshape j w hj).1 hjk).2
      rw [ht] at this
      exact hnew (List.mem_iff_getElem?.mpr ⟨j, this⟩)
    obtain ⟨index', tag', st', p, cur, hidx', htag', hs', _, _, _, _, hrd, halt⟩ :=
      Cache.read_miss_detail hwf hnh
    have e1 : index' = idx := by rw [hidx] at hidx'; exact (Option.some.inj hidx').symm
    subst e1
    have e2 : tag' = tag := by rw [htag] at htag'; exact (Option.some.inj htag').symm
    subst e2
    have e3 : st' = st := by rw [hs] at hs'; exact (Option.some.inj hs').symm
    subst e3
    rw [hr] at hrd
    cases hrd
    have hkl : ts.length < st'.ways.length := by omega
    have hwk : st'.ways[ts.length]? = some st'.ways[ts.length] := List.getElem?_eq_getElem hkl
    have hkinv : (st'.ways[ts.length]).valid = false := (hshape _ _ hwk).2 (le_refl _)
    have hpc : p = ts.length ∧ cur = 0 := by
      rcases halt with ⟨⟨w0, hw0, hv0⟩, hb, hcur'⟩ | ⟨hall, _, _⟩
      · refine ⟨?_, by rw [hcur', hc0]⟩
        rcases Nat.lt_trichotomy p ts.length with hlt | heq | hgt
        · have := ((hshape p w0 hw0).1 hlt).1
          rw [hv0] at this
          cases this
        · exact heq
        · have := hb ts.length hgt _ hwk
          rw [hkinv] at this
          cases this
      · have := hall _ (List.mem_iff_getElem?.mpr ⟨_, hwk⟩)
        rw [hkinv] at this
        cases this
    obtain ⟨hp, hc⟩ := hpc
    subst hp hc
    have hk : index' < c.sets.length := (List.getElem?_eq_some.mp hs).1
    refine ⟨(Cache.read_result hwf hr).1, hg.trans (c.sameGeometry_replace index' _), ?_,
      ⟨st'.ways.set ts.length ⟨tag', true, false⟩, 0⟩, by simp [List.getElem?_set, hk], rfl,
      by simpa using hl, ?_⟩
    · rw [List.nodup_append]
      refine ⟨hnd, List.nodup_singleton _, ?_⟩
      intro x hx hx'
      rw [List.mem_singleton] at hx'
      subst hx'
      exact hnew hx
    · intro j w hw
      simp only [List.length_append, List.length_singleton]
      rw [List.getElem?_set] at hw
      by_cases hj : ts.length = j
      · subst hj
        rw [if_pos rfl, if_pos hkl] at hw
        cases hw
        exact ⟨fun _ => ⟨rfl, by simp⟩, fun hge => absurd hge (by omega)⟩
      · rw [if_neg hj] at hw
        refine ⟨fun hlt => ?_, fun hge => (hshape j w hw).2 (by omega)⟩
        have hlt' : j < ts.length := by omega
        obtain ⟨hv, ht⟩ := (hshape j w hw).1 hlt'
        exact ⟨hv, by rw [List.getElem?_append_left hlt']; exact ht⟩
  | @readHit ts c c' a tag r _ hidx htag hmem hr ih =>
    obtain ⟨hwf, hg, hnd, st, hs, hc0, hl, hshape⟩ := ih hlen
    have hh : c.Holds a := by
      obtain ⟨j, hj⟩ := List.mem_iff_getElem?.mp hmem
      have hjl : j < ts.length := (List.getElem?_eq_some.mp hj).1
      have hjw : st.ways[j]? = some st.ways[j] := List.getElem?_eq_getElem (by omega)
      obtain ⟨hv, ht⟩ := (hshape j _ hjw).1 hjl
      rw [hj] at ht
      exact (Cache.holds_iff hidx htag hs).mpr
        ⟨_, List.mem_iff_getElem?.mpr ⟨j, hjw⟩, hv, (Option.some.inj ht).symm⟩
    have := Cache.read_of_holds hwf hh
    rw [hr] at this
    cases this
    exact ⟨hwf, hg, hnd, st, hs, hc0, hl, hshape⟩
  | @writeHit ts c c' a tag r _ hidx htag hmem hr ih =>
    obtain ⟨hwf, hg, hnd, st, hs, hc0, hl, hshape⟩ := ih hlen
    have hh : c.Holds a := by
      obtain ⟨j, hj⟩ := List.mem_iff_getElem?.mp hmem
      have hjl : j < ts.length := (List.getElem?_eq_some.mp hj).1
      have hjw : st.ways[j]? = some st.ways[j] := List.getElem?_eq_getElem (by omega)
      obtain ⟨hv, ht⟩ := (hshape j _ hjw).1 hjl
      rw [hj] at ht
      exact (Cache.holds_iff hidx htag hs).mpr
        ⟨_, List.mem_iff_getElem?.mpr ⟨j, hjw⟩, hv, (Option.some.inj ht).symm⟩
    obtain ⟨index', _, st', i, hidx', _, hs', hfm, hw⟩ := Cache.write_of_holds hwf hh
    have e1 : index' = idx := by rw [hidx] at hidx'; exact (Option.some.inj hidx').symm
    subst e1
    have e3 : st' = st := by rw [hs] at hs'; exact (Option.some.inj hs').symm
    subst e3
    rw [hr] at hw
    cases hw
    obtain ⟨wi, hwi, _, _⟩ := hfm.1
    have hk : index' < c.sets.length := (List.getElem?_eq_some.mp hs).1
    have hil : i < st'.ways.length := (List.getElem?_eq_some.mp hwi).1
    rw [Cache.withDirty_eq hs hwi]
    refine ⟨Cache.withDirty_eq hs hwi ▸ Cache.withDirty_wellFormed hwf index' i,
      hg.trans (c.sameGeometry_replace index' _), hnd,
      ⟨st'.ways.set i { wi with dirty := true }, st'.evictionCounter⟩,
      by simp [List.getElem?_set, hk], hc0, by simpa using hl, ?_⟩
    intro j w hjw
    rw [List.getElem?_set] at hjw
    by_cases hj : i = j
    · subst hj
      rw [if_pos rfl, if_pos hil] at hjw
      cases hjw
      exact hshape i wi hwi
    · rw [if_neg hj] at hjw
      exact hshape j w hjw

/-- C11: in a well-formed level of associativity `A`, start from a set with
every way invalid and cursor 0 and let `A` tags be inserted by first reads,
interleaved with any reads and writes of tags already inserted.  Then way 0
holds the first tag, the tags are pairwise distinct, and the read of a further
new tag is a miss that overwrites way 0: afterwards the first tag is not found
in the set, the other `A - 1` tags and the new tag are found as valid. -/
theorem replacement_order (c0 c : Cache) (idx : Nat) (st0 : Set) (ts : List Nat) (a t : Nat)
    (h : c0.WellFormed) (hs0 : c0.sets[idx]? = some st0)
    (hinv : ∀ w ∈ st0.ways, w.valid = false) (hcur : st0.evictionCounter = 0)
    (hf : Fills idx c0 ts c) (hlen : ts.length = c0.associativity)
    (hidx : c.readIndex a = some idx) (htag : c.tagOf a = some t) (hnew : t ∉ ts) :
    ∃ w1 c' st', c.way idx 0 = some w1 ∧ w1.valid = true ∧ ts[0]? = some w1.tag ∧
      c.read a = some (2, c') ∧ c'.sets[idx]? = some st' ∧
      st'.ways[0]? = some ⟨t, true, false⟩ ∧ (st'.findBlock t).isSome = true ∧
      ts.Nodup ∧
      ∀ (j : Nat) (tj : Nat), ts[j]? = some tj →
        (j = 0 → st'.findBlock tj = none) ∧ (0 < j → (st'.findBlock tj).isSome = true) := by
  obtain ⟨hwf, hg, hnd, st, hs, hc0, hl, hshape⟩ := hf.shape h hs0 hinv hcur (by omega)
  have hA := h.1
  have hallv : ∀ w ∈ st.ways, w.valid = true := by
    intro w hw
    obtain ⟨j, hj⟩ := List.mem_iff_getElem?.mp hw
    have hjl : j < st.ways.length := (List.getElem?_eq_some.mp hj).1
    exact ((hshape j w hj).1 (by omega)).1
  have hnh : ¬ c.Holds a := by
    intro hh
    obtain ⟨w, hw, hv, ht⟩ := (Cache.holds_iff hidx htag hs).mp hh
    obtain ⟨j, hj⟩ := List.mem_iff_getElem?.mp hw
    have hjl : j < st.ways.length := (List.getElem?_eq_some.mp hj).1
    have := ((hshape j w hj).1 (by omega)).2
    rw [ht] at this
    exact hnew (List.mem_iff_getElem?.mpr ⟨j, this⟩)
  obtain ⟨index', tag', st', p, cur, hidx', htag', hs', _, _, _, _, hrd, halt⟩ :=
    Cache.read_miss_detail hwf hnh
  have e1 : index' = idx := by rw [hidx] at hidx'; exact (Option.some.inj hidx').symm
  subst e1
  have e2 : tag' = t := by rw [htag] at htag'; exact (Option.some.inj htag').symm
  subst e2
  have e3 : st' = st := by rw [hs] at hs'; exact (Option.some.inj hs').symm
  subst e3
  have hp0 : p = 0 := by
    rcases halt with ⟨⟨w0, hw0, hv0⟩, _, _⟩ | ⟨_, hp, _⟩
    · have := hallv w0 (List.mem_iff_getElem?.mpr ⟨_, hw0⟩)
      rw [hv0] at this
      cases this
    · rw [hp, hc0]
  subst hp0
  have hk : index' < c.sets.length := (List.getElem?_eq_some.mp hs).1
  have h0l : 0 < st'.ways.length := by omega
  have hway0 : (st'.ways.set 0 ⟨tag', true, false⟩)[0]? = some ⟨tag', true, false⟩ := by
    simp [List.getElem?_set, h0l]
  have hw1 : st'.ways[0]? = some st'.ways[0] := List.getElem?_eq_getElem h0l
  obtain ⟨hv1, ht1⟩ := (hshape 0 _ hw1).1 (by omega)
  refine ⟨st'.ways[0], _, ⟨st'.ways.set 0 ⟨tag', true, false⟩, cur⟩, by simp [Cache.way, hs, hw1],
    hv1, ht1, hrd, by simp [List.getElem?_set, hk], hway0, ?_, hnd, ?_⟩
  · exact (Set.findBlock_isSome_iff _ tag').mpr
      ⟨_, List.mem_iff_getElem?.mpr ⟨0, hway0⟩, rfl, rfl⟩
  · intro j tj hj
    have hjl : j < ts.length := (List.getElem?_eq_some.mp hj).1
    constructor
    · intro hj0
      subst hj0
      cases hfb : (Set.findBlock ⟨st'.ways.set 0 ⟨tag', true, false⟩, cur⟩ tj).isSome with
      | false =>
        cases hfb' : Set.findBlock ⟨st'.ways.set 0 ⟨tag', true, false⟩, cur⟩ tj with
        | none => rfl
        | some k => rw [hfb'] at hfb; cases hfb
      | true =>
        exfalso
        obtain ⟨w, hw, _, ht⟩ := (Set.findBlock_isSome_iff _ tj).mp hfb
        obtain ⟨i, hi⟩ := List.mem_iff_getElem?.mp hw
        have hi' : (st'.ways.set 0 ⟨tag', true, false⟩)[i]? = some w := hi
        rw [List.getElem?_set] at hi'
        by_cases hi0 : 0 = i
        · rw [if_pos hi0, if_pos h0l] at hi'
          cases hi'
          exact hnew (List.mem_iff_getElem?.mpr ⟨0, by rw [hj, ← ht]⟩)
        · rw [if_neg hi0] at hi'
          have hil : i < st'.ways.length := (List.getElem?_eq_some.mp hi').1
          have := ((hshape i w hi').1 (by omega)).2
          rw [ht] at this
          exact (List.nodup_iff_getElem?_ne_getElem?.mp hnd) 0 i (by omega) (by omega)
            (by rw [hj, this])
    · intro hjpos
      have hjw : st'.ways[j]? = some st'.ways[j] := List.getElem?_eq_getElem (by omega)
      obtain ⟨hv, ht⟩ := (hshape j _ hjw).1 hjl
      rw [hj] at ht
      refine (Set.findBlock_isSome_iff _ tj).mpr
        ⟨st'.ways[j], List.mem_iff_getElem?.mpr ⟨j, ?_⟩, hv, (Option.some.inj ht).symm⟩
      show (st'.ways.set 0 ⟨tag', true, false⟩)[j]? = some st'.ways[j]
      rw [List.getElem?_set_ne (by omega)]
      exact hjw

theorem replacement_order_witness :
    Fills 0 freshL1 [1, 2] filledL1 ∧
      ∃ w1 c' st', filledL1.way 0 0 = some w1 ∧ w1.valid = true ∧ [1, 2][0]? = some w1.tag ∧
        filledL1.read 24 = some (2, c') ∧ c'.sets[0]? = some st' ∧
        st'.ways[0]? = some ⟨3, true, false⟩ ∧ (st'.findBlock 3).isSome = true ∧
        [1, 2].Nodup ∧
        ∀ (j : Nat) (tj : Nat), [1, 2][j]? = some tj →
          (j = 0 → st'.findBlock tj = none) ∧ (0 < j → (st'.findBlock tj).isSome = true) :=
  have f1 : Fills 0 freshL1 [1] { freshL1 with
      sets := [⟨[⟨1, true, false⟩, ⟨0, false, false⟩], 0⟩,
        ⟨[⟨0, false, false⟩, ⟨0, false, false⟩], 0⟩] } :=
    @Fills.insert 0 freshL1 [] freshL1 _ 8 1 2 Fills.start rfl rfl (by decide) rfl
  have f2 : Fills 0 freshL1 [1] { freshL1 with
      sets := [⟨[⟨1, true, false⟩, ⟨0, false, false⟩], 0⟩,
        ⟨[⟨0, false, false⟩, ⟨0, false, false⟩], 0⟩] } :=
    @Fills.readHit 0 freshL1 [1] _ _ 8 1 1 f1 rfl rfl (by decide) rfl
  have f3 : Fills 0 freshL1 [1, 2] { freshL1 with
      sets := [⟨[⟨1, true, false⟩, ⟨2, true, false⟩], 0⟩,
        ⟨[⟨0, false, false⟩, ⟨0, false, false⟩], 0⟩] } :=
    @Fills.insert 0 freshL1 [1] _ _ 16 2 2 f2 rfl rfl (by decide) rfl
  have f4 : Fills 0 freshL1 [1, 2] filledL1 :=
    @Fills.writeHit 0 freshL1 [1, 2] _ _ 8 1 3 f3 rfl rfl (by decide) rfl
  ⟨f4, replacement_order freshL1 filledL1 0 _ [1, 2] 24 3 (by decide) rfl (by decide) rfl f4 rfl
    rfl rfl (by decide)⟩


/-- C13: from well-formed levels with every way invalid, every sequence of
`read`, `write` and `evictAndMove` calls and of controller events runs to its
end, and in the state it reaches every set of both levels has at most one valid
way holding any given tag. -/
theorem unique_tags_reachable (L1 L2 : Cache) (calls : List Call) (h1 : L1.WellFormed)
    (h2 : L2.WellFormed) (hi1 : L1.AllInvalid) (hi2 : L2.AllInvalid) :
    ∃ L1' L2', runCalls calls (L1, L2) = some (L1', L2') ∧ L1'.UniqueTags ∧ L2'.UniqueTags := by
  obtain ⟨L1', L2', hrun, _, _, q1, q2⟩ :=
    runCalls_keeps uniqueWays_closed calls h1 h2 hi1.uniqueTags hi2.uniqueTags
  exact ⟨L1', L2', hrun, q1, q2⟩

theorem unique_tags_reachable_witness :
    ∃ L1' L2', runCalls [.event 'R' 20, .event 'R' 40, .event 'W' 20, .evictAndMove1 20,
        .read1 28, .write2 20, .event 'R' 20] (freshL1, freshL2) = some (L1', L2') ∧
      L1'.UniqueTags ∧ L2'.UniqueTags :=
  unique_tags_reachable freshL1 freshL2 _ (by decide) (by decide) (by decide) (by decide)

/-- C18: from well-formed levels with every way invalid and clean, every
sequence of `read`, `write` and `evictAndMove` calls and of controller events
runs to its end, and in the state it reaches every dirty way of both levels is
valid; in particular the way at the cursor of any target set, the one
`evictAndMove` tests, is valid whenever it is dirty. -/
theorem dirty_implies_valid_reachable (L1 L2 : Cache) (calls : List Call)
    (h1 : L1.WellFormed) (h2 : L2.WellFormed) (_hi1 : L1.AllInvalid) (hc1 : L1.AllClean)
    (_hi2 : L2.AllInvalid) (hc2 : L2.AllClean) :
    ∃ L1' L2', runCalls calls (L1, L2) = some (L1', L2') ∧ L1'.DirtyValid ∧ L2'.DirtyValid ∧
      (∀ (a index : Nat) (st : Set) (w : CacheBlock), L1'.readIndex a = some index →
        L1'.sets[index]? = some st → st.ways[st.evictionCounter]? = some w →
        w.dirty = true → w.valid = true) ∧
      (∀ (a index : Nat) (st : Set) (w : CacheBlock), L2'.readIndex a = some index →
        L2'.sets[index]? = some st → st.ways[st.evictionCounter]? = some w →
        w.dirty = true → w.valid = true) := by
  obtain ⟨L1', L2', hrun, _, _, q1, q2⟩ :=
    runCalls_keeps dirtyValidWays_closed calls h1 h2 hc1.dirtyValid hc2.dirtyValid
  refine ⟨L1', L2', hrun, q1, q2, ?_, ?_⟩
  · intro a index st w _ hs hw hd
    exact q1 st (List.mem_iff_getElem?.mpr ⟨_, hs⟩) w (List.mem_iff_getElem?.mpr ⟨_, hw⟩) hd
  · intro a index st w _ hs hw hd
    exact q2 st (List.mem_iff_getElem?.mpr ⟨_, hs⟩) w (List.mem_iff_getElem?.mpr ⟨_, hw⟩) hd

theorem dirty_implies_valid_reachable_witness :
    ∃ L1' L2', runCalls [.event 'R' 20, .event 'W' 20, .event 'R' 28, .evictAndMove1 20,
        .write1 28, .evictAndMove2 20] (freshL1, freshL2) = some (L1', L2') ∧
      L1'.DirtyValid ∧ L2'.DirtyValid ∧
      (∀ (a index : Nat) (st : Set) (w : CacheBlock), L1'.readIndex a = some index →
        L1'.sets[index]? = some st → st.ways[st.evictionCounter]? = some w →
        w.dirty = true → w.valid = true) ∧
      (∀ (a index : Nat) (st : Set) (w : CacheBlock), L2'.readIndex a = some index →
        L2'.sets[index]? = some st → st.ways[st.evictionCounter]? = some w →
        w.dirty = true → w.valid = true) :=
  dirty_implies_valid_reachable freshL1 freshL2 _ (by decide) (by decide) (by decide)
    (by decide) (by decide) (by decide)

end CacheSim
